import Mathlib

/-!
# goSRT `voice` package: region detection and region extraction

A shallow embedding of `src/voice/voice.go`, and what it guarantees.

* Times are Go `float64`s. The region walk is given twice: `regionsStep` and `vadStep`
  compute in exact rational arithmetic; `regionsStepFl` and `vadStepFl` make the
  rounding `fl` of every `+` and `-` explicit, with `exact` for no rounding and
  `float64` for IEEE 754 binary64. What rests only on the guards and on the order of
  the chunks is stated on the exact walk; what depends on the computed values is
  stated for every rounding.
* The package-level tunables `MAX_REGION_SIZE` and `MIN_REGION_SIZE` are mutable
  `var`s in the source; they are carried in a `Tunables` record whose default is
  the source's initial values.
* External collaborators (the wav reader, the VAD engine, `extractSlice`) are
  represented by the results they return, call by call. The helper `rms` of the
  package is a parameter of `Regions`, and so is `percentile`, for which a model
  from the spec is given.
* `To` is modelled as a transition system over the atomic events of its goroutines;
  a schedule is any sequence of these events. The meaning of the loop variable
  `region` (one per iteration, or one for the whole loop) is a parameter.
-/

namespace GoSRT

/-! ## Definitions: the embedding of `voice.go` and the predicates of the proofs -/

/-- Package-level tunables read by the detectors. -/
structure Tunables where
  MAX_REGION_SIZE : ℚ
  MIN_REGION_SIZE : ℚ
deriving DecidableEq, Repr

/-- Initial values of the tunables in the source (`6.0` and `0.5`). -/
def defaultTunables : Tunables := ⟨6, 1 / 2⟩

/-- The `Region` struct. -/
structure Region where
  Start : ℚ
  End : ℚ
deriving DecidableEq, Repr

/-- The fields of the `Voice` struct that the detectors read. -/
structure Voice where
  rate : Nat
  nChannels : Nat
  chunkDuration : ℚ
  nChunks : Nat
deriving DecidableEq, Repr

/-- Local variables of the region walk (shared shape of `Regions` and `Vad`). -/
structure Walk where
  regions : List Region
  region_start : ℚ
  elapsed_time : ℚ
deriving DecidableEq, Repr

/-- Zero values of `regions`, `region_start` and `elapsed_time` before the loop. -/
def Walk.init : Walk := ⟨[], 0, 0⟩

/-- The three outcomes the callers distinguish for an `error` value of a read. -/
inductive ReadErr where
  | none
  | EOF
  | other
deriving DecidableEq, Repr

/-- Raw samples returned by one `ReadSamples` call. -/
abbrev Samples := List Int

/-- Result `(samples, err)` of one `v.r.ReadSamples(4096)` call. -/
structure SampleRead where
  samples : Samples
  err : ReadErr
deriving DecidableEq, Repr

/-- The read loop of `Regions` (lines 128-134): at most `n` more iterations; a source
with no further result reports `io.EOF`. Only `io.EOF` leaves the loop; any other
`err` is not inspected and the energy of the returned samples is appended. -/
def readEnergies (rms : Samples → Nat → ℚ) (nChannels : Nat) :
    Nat → List SampleRead → List ℚ → List ℚ
  | 0, _, energies => energies
  | _ + 1, [], energies => energies
  | n + 1, rd :: rest, energies =>
    if rd.err = ReadErr.EOF then energies
    else readEnergies rms nChannels n rest (energies ++ [rms rd.samples nChannels])

/-- One iteration of the `for _, energy := range energies` loop (lines 141-156). -/
def regionsStep (c : Tunables) (threshold chunkDuration : ℚ) (s : Walk) (energy : ℚ) : Walk :=
  let is_silence : Bool := decide (energy ≤ threshold)
  let max_exceeded : Bool :=
    decide (s.region_start ≠ 0) && decide (s.elapsed_time - s.region_start ≥ c.MAX_REGION_SIZE)
  if (max_exceeded || is_silence) && decide (s.region_start ≠ 0) then
    if s.elapsed_time - s.region_start ≥ c.MIN_REGION_SIZE then
      { regions := s.regions ++ [⟨s.region_start, s.elapsed_time⟩]
        region_start := 0
        elapsed_time := s.elapsed_time + chunkDuration }
    else
      { s with elapsed_time := s.elapsed_time + chunkDuration }
  else if decide (s.region_start = 0) && !is_silence then
    { s with region_start := s.elapsed_time, elapsed_time := s.elapsed_time + chunkDuration }
  else
    { s with elapsed_time := s.elapsed_time + chunkDuration }

/-- The whole region walk of `Regions` over an energy sequence, from a given state. -/
def regionsLoop (c : Tunables) (threshold chunkDuration : ℚ) (s : Walk) (energies : List ℚ) :
    Walk :=
  energies.foldl (regionsStep c threshold chunkDuration) s

/-- The region walk of `Regions` from the zero state: the regions it has emitted. -/
def regionsWalk (c : Tunables) (threshold chunkDuration : ℚ) (energies : List ℚ) : List Region :=
  (regionsLoop c threshold chunkDuration Walk.init energies).regions

/-- `Voice.Regions`. The helpers `rms` and `percentile` live outside this file of the
package and are parameters. -/
def Regions (c : Tunables) (rms : Samples → Nat → ℚ) (percentile : List ℚ → ℚ → ℚ)
    (v : Voice) (reads : List SampleRead) : List Region :=
  let energies := readEnergies rms v.nChannels v.nChunks reads []
  let threshold := percentile energies (1 / 5)
  regionsWalk c threshold v.chunkDuration energies

/-- One turn of the `for` loop of `Vad` as seen from outside: the `err` of
`v.file.Read(frameBuffer)` and the pair `(frameActive, err)` that
`webrtcvad.Process` returns for the frame. -/
structure VadFrame where
  readErr : ReadErr
  frameActive : Bool
  processErr : Bool
deriving DecidableEq, Repr

/-- Lines 186-198: the body of the `Vad` loop after a successful read. The `err`
returned by `webrtcvad.Process` is bound and never read, so it is not an input. -/
def vadStep (c : Tunables) (chunkDuration : ℚ) (s : Walk) (frameActive : Bool) : Walk :=
  if (decide (s.elapsed_time - s.region_start ≥ c.MAX_REGION_SIZE) || !frameActive)
      && decide (s.region_start ≠ 0) then
    if s.elapsed_time - s.region_start ≥ c.MIN_REGION_SIZE then
      { regions := s.regions ++ [⟨s.region_start, s.elapsed_time⟩]
        region_start := 0
        elapsed_time := s.elapsed_time + chunkDuration }
    else
      { s with elapsed_time := s.elapsed_time + chunkDuration }
  else if decide (s.region_start = 0) && frameActive then
    { s with region_start := s.elapsed_time, elapsed_time := s.elapsed_time + chunkDuration }
  else
    { s with elapsed_time := s.elapsed_time + chunkDuration }

/-- The `for` loop of `Vad` (lines 177-199). `none` is the `return nil` of line 184;
`some s` is the state at the `break` of line 180. A stream with no further frame
reports `io.EOF`. -/
def vadLoop (c : Tunables) (chunkDuration : ℚ) : Walk → List VadFrame → Option Walk
  | s, [] => some s
  | s, f :: rest =>
    match f.readErr with
    | ReadErr.EOF => some s
    | ReadErr.other => none
    | ReadErr.none => vadLoop c chunkDuration (vadStep c chunkDuration s f.frameActive) rest

/-- `Voice.Vad`: `nil` (the empty slice) after a failed read, else the regions emitted
up to the end of the stream. `webrtcvad.SetMode` is taken to succeed (otherwise
`log.Fatal` ends the process before the loop). -/
def Vad (c : Tunables) (v : Voice) (frames : List VadFrame) : List Region :=
  match vadLoop c v.chunkDuration Walk.init frames with
  | none => []
  | some s => s.regions

/-- The activity flag the energy walk derives from an energy: `!is_silence`. -/
def isActive (threshold energy : ℚ) : Bool := !decide (energy ≤ threshold)

/-- Frames read before the first `Read` that returns a non-nil `err`. -/
def okFrames : List VadFrame → List VadFrame
  | [] => []
  | f :: rest => if f.readErr = ReadErr.none then f :: okFrames rest else []

/-- Order relation between an emitted region and a later one. -/
def Before (a b : Region) : Prop := a.End ≤ b.Start ∧ a.Start < b.Start

/-- Invariant behind the ordering of the emitted regions. -/
def OrderInv (s : Walk) : Prop :=
  s.regions.Pairwise Before ∧
    (∀ r ∈ s.regions, r.Start < r.End ∧ r.End < s.elapsed_time ∧
      (s.region_start ≠ 0 → r.End ≤ s.region_start)) ∧
    (s.region_start ≠ 0 → s.region_start < s.elapsed_time)

/-- A frame whose read succeeds and that the classifier reports as speech. -/
def activeFrame : VadFrame := ⟨ReadErr.none, true, false⟩

/-- A frame whose read succeeds and that the classifier reports as non-speech. -/
def silentFrame : VadFrame := ⟨ReadErr.none, false, false⟩

/-- A `Voice` opened in VAD mode at 16 kHz: 20 ms frames. -/
def vadVoice : Voice := ⟨16000, 1, 1 / 50, 0⟩

/-- The loop body of `Vad` (lines 186-198) with the rounding of the float64 operations
explicit: `fl` maps the exact result of each `+` and `-` to the value the machine
stores. With `fl` the identity this is `vadStep`. -/
def vadStepFl (fl : ℚ → ℚ) (c : Tunables) (chunkDuration : ℚ) (s : Walk)
    (frameActive : Bool) : Walk :=
  if (decide (fl (s.elapsed_time - s.region_start) ≥ c.MAX_REGION_SIZE) || !frameActive)
      && decide (s.region_start ≠ 0) then
    if fl (s.elapsed_time - s.region_start) ≥ c.MIN_REGION_SIZE then
      { regions := s.regions ++ [⟨s.region_start, s.elapsed_time⟩]
        region_start := 0
        elapsed_time := fl (s.elapsed_time + chunkDuration) }
    else
      { s with elapsed_time := fl (s.elapsed_time + chunkDuration) }
  else if decide (s.region_start = 0) && frameActive then
    { s with
      region_start := s.elapsed_time
      elapsed_time := fl (s.elapsed_time + chunkDuration) }
  else
    { s with elapsed_time := fl (s.elapsed_time + chunkDuration) }

/-- The loop body of `Regions` (lines 141-156) with the rounding of the float64
operations explicit. With `fl` the identity this is `regionsStep`. -/
def regionsStepFl (fl : ℚ → ℚ) (c : Tunables) (threshold chunkDuration : ℚ) (s : Walk)
    (energy : ℚ) : Walk :=
  let is_silence : Bool := decide (energy ≤ threshold)
  let max_exceeded : Bool :=
    decide (s.region_start ≠ 0) &&
      decide (fl (s.elapsed_time - s.region_start) ≥ c.MAX_REGION_SIZE)
  if (max_exceeded || is_silence) && decide (s.region_start ≠ 0) then
    if fl (s.elapsed_time - s.region_start) ≥ c.MIN_REGION_SIZE then
      { regions := s.regions ++ [⟨s.region_start, s.elapsed_time⟩]
        region_start := 0
        elapsed_time := fl (s.elapsed_time + chunkDuration) }
    else
      { s with elapsed_time := fl (s.elapsed_time + chunkDuration) }
  else if decide (s.region_start = 0) && !is_silence then
    { s with
      region_start := s.elapsed_time
      elapsed_time := fl (s.elapsed_time + chunkDuration) }
  else
    { s with elapsed_time := fl (s.elapsed_time + chunkDuration) }

/-- The region walk of `Regions` under rounding `fl`, from a given state. -/
def regionsLoopFl (fl : ℚ → ℚ) (c : Tunables) (threshold chunkDuration : ℚ) (s : Walk)
    (energies : List ℚ) : Walk :=
  energies.foldl (regionsStepFl fl c threshold chunkDuration) s

/-- The regions emitted by the region walk of `Regions` under rounding `fl`. -/
def regionsWalkFl (fl : ℚ → ℚ) (c : Tunables) (threshold chunkDuration : ℚ)
    (energies : List ℚ) : List Region :=
  (regionsLoopFl fl c threshold chunkDuration Walk.init energies).regions

/-- `Voice.Regions` under rounding `fl`. -/
def RegionsFl (fl : ℚ → ℚ) (c : Tunables) (rms : Samples → Nat → ℚ)
    (percentile : List ℚ → ℚ → ℚ) (v : Voice) (reads : List SampleRead) : List Region :=
  let energies := readEnergies rms v.nChannels v.nChunks reads []
  let threshold := percentile energies (1 / 5)
  regionsWalkFl fl c threshold v.chunkDuration energies

/-- The `for` loop of `Vad` under rounding `fl`. -/
def vadLoopFl (fl : ℚ → ℚ) (c : Tunables) (chunkDuration : ℚ) :
    Walk → List VadFrame → Option Walk
  | s, [] => some s
  | s, f :: rest =>
    match f.readErr with
    | ReadErr.EOF => some s
    | ReadErr.other => none
    | ReadErr.none =>
      vadLoopFl fl c chunkDuration (vadStepFl fl c chunkDuration s f.frameActive) rest

/-- `Voice.Vad` under rounding `fl`. -/
def VadFl (fl : ℚ → ℚ) (c : Tunables) (v : Voice) (frames : List VadFrame) : List Region :=
  match vadLoopFl fl c v.chunkDuration Walk.init frames with
  | none => []
  | some s => s.regions

/-- The value of `elapsed_time` after `n` chunks: `n` rounded additions of the chunk
duration, starting from 0. -/
def elapsedFl (fl : ℚ → ℚ) (d : ℚ) : Nat → ℚ
  | 0 => 0
  | n + 1 => fl (elapsedFl fl d n + d)

/-- Exact arithmetic: nothing is rounded. -/
def exact (x : ℚ) : ℚ := x

/-- Rounding of a rational to the nearest integer, ties to the even one. -/
def roundHalfEven (q : ℚ) : ℤ :=
  let f := ⌊q⌋
  let r := q - f
  if r < 1 / 2 then f else if 1 / 2 < r then f + 1 else if f % 2 = 0 then f else f + 1

/-- Number of binary digits of `n`, by halving at most `fuel` times. -/
def bitLength : Nat → Nat → Nat
  | 0, _ => 0
  | fuel + 1, n => if n = 0 then 0 else bitLength fuel (n / 2) + 1

/-- The float64 (IEEE 754 binary64, round to nearest, ties to even) nearest to a
rational in the normal range: with `2 ^ e ≤ |x| < 2 ^ (e + 1)`, the nearest multiple
of `2 ^ (e - 52)`. The exponent is found from the bit lengths of numerator and
denominator. -/
def float64 (x : ℚ) : ℚ :=
  if x = 0 then 0 else
    let e0 : ℤ := (bitLength 2048 x.num.natAbs : ℤ) - (bitLength 2048 x.den : ℤ)
    let e : ℤ := if (2 : ℚ) ^ e0 ≤ |x| then e0 else e0 - 1
    (roundHalfEven (x * (2 : ℚ) ^ (52 - e)) : ℚ) / (2 : ℚ) ^ (52 - e)

/-- A `Voice` opened in VAD mode at 16 kHz as the machine holds it: the chunk duration
is the float64 nearest to `0.02`. -/
def vadVoice64 : Voice := ⟨16000, 1, float64 (1 / 50), 0⟩

/-- Modelled from the spec: `percentile`, which is not in `src/`. "Percentile uses
rank-based selection over the sorted sequence (tie-break: lower-index element wins)":
the entry of rank `⌊p * (n - 1)⌋` of the sorted sequence. -/
def percentile (xs : List ℚ) (p : ℚ) : ℚ :=
  (xs.insertionSort (fun a b => a ≤ b)).getD ⌊p * ((xs.length : ℚ) - 1)⌋₊ 0

/-- Invariant behind the length bound under rounding: an open region was, at the
previous chunk, just opened or shorter than `MAX_REGION_SIZE`. -/
def MaxInvFl (fl : ℚ → ℚ) (c : Tunables) (d : ℚ) (s : Walk) : Prop :=
  (∀ r ∈ s.regions, ∃ p, r.End = fl (p + d) ∧
      (p = r.Start ∨ fl (p - r.Start) < c.MAX_REGION_SIZE)) ∧
    (s.region_start ≠ 0 → ∃ p, s.elapsed_time = fl (p + d) ∧
      (p = s.region_start ∨ fl (p - s.region_start) < c.MAX_REGION_SIZE))

/-- Invariant locating the end of every emitted region at a chunk already walked,
under rounding. -/
def EndInvFl (fl : ℚ → ℚ) (c : Tunables) (d : ℚ) (l : List Bool) (s : Walk) : Prop :=
  s.elapsed_time = elapsedFl fl d l.length ∧
    ∀ r ∈ s.regions, ∃ i, i < l.length ∧ r.End = elapsedFl fl d i ∧
      (l[i]? = some false ∨ c.MAX_REGION_SIZE ≤ fl (r.End - r.Start))

/-- The read result with any error other than `io.EOF` replaced by success. -/
def SampleRead.ignoreOther (rd : SampleRead) : SampleRead :=
  if rd.err = ReadErr.other then ⟨rd.samples, ReadErr.none⟩ else rd

/-- A frame whose read fails with an error other than `io.EOF`. -/
def failedFrame : VadFrame := ⟨ReadErr.other, false, false⟩

/-- A frame read successfully for which the classifier returns `false` and an error. -/
def erringFrame : VadFrame := ⟨ReadErr.none, false, true⟩

/-- The frame with the `err` of `webrtcvad.Process` replaced by `nil`. -/
def VadFrame.clearProcessErr (f : VadFrame) : VadFrame := { f with processErr := false }

/-- A slice handle: the `*os.File` returned by a successful `extractSlice`, identified
by a number; `0` stands for the nil pointer. -/
abbrev File := Nat

/-- What `for index, region := range r` declares: one `region` variable per iteration
(Go 1.22 and later) or one for the whole loop (before Go 1.22). The closure of line 96
refers to that variable and reads it at line 99, after the handoff. -/
inductive LoopVar where
  | perIteration
  | perLoop
deriving DecidableEq, Repr

/-- Where one of the goroutines started by `To` stands. Goroutine `g` is the one
started by loop iteration `g`; `region` is the value loop iteration `g` gave to the
variable `region`. -/
inductive Goroutine where
  /-- Not started yet. -/
  | unspawned
  /-- Started, blocked at `id := <-goid` (line 98). -/
  | receiving (region : Region)
  /-- Holds its `id`; `extractSlice` has not returned yet (line 99). -/
  | extracting (region : Region) (id : Nat)
  /-- `extractSlice` succeeded with `f`; `file[id] = f` under the lock is still to come
  (lines 104-106). -/
  | storing (id : Nat) (f : File)
  /-- Returned (`wg.Done()` has run). -/
  | done
deriving DecidableEq, Repr

/-- Shared state of one call of `To`. -/
structure ToState where
  /-- The dispatcher's loop variable `index`: iterations `0 .. index - 1` are over. -/
  index : Nat
  /-- The dispatcher has started goroutine `index` and is blocked at `goid <- index`. -/
  sending : Bool
  /-- The goroutines, by the loop iteration that started them. -/
  goroutines : Nat → Goroutine
  /-- The map `file`, as an association list with distinct keys. -/
  file : List (Nat × File)
  /-- The current value of the loop variable `region` of the dispatcher. -/
  region : Region

/-- State at the first loop iteration: empty map, no goroutine. -/
def ToState.init : ToState := ⟨0, false, fun _ => Goroutine.unspawned, [], ⟨0, 0⟩⟩

/-- The atomic events of a run of `To`. -/
inductive Event where
  /-- Dispatcher: the loop assigns `index` and `region`, then `wg.Add(1)`,
  `go func() {...}()`, and it reaches `goid <- index`. -/
  | spawn
  /-- The rendezvous on the unbuffered channel `goid` between the dispatcher and
  goroutine `g`, which is blocked at `<-goid`. -/
  | handoff (g : Nat)
  /-- In goroutine `g`, `extractSlice(region.Start, region.End, ...)` is called and
  returns; on an error the goroutine logs and returns. -/
  | extracted (g : Nat)
  /-- Goroutine `g` takes the lock, writes `file[id] = f` and returns. -/
  | stored (g : Nat)
deriving DecidableEq, Repr

/-- The statement `file[k] = f` on the association list. -/
def mapSet (m : List (Nat × File)) (k : Nat) (f : File) : List (Nat × File) :=
  (k, f) :: m.filter (fun p => p.1 ≠ k)

/-- The expression `file[k]`: the zero value when `k` is absent. -/
def mapGet (m : List (Nat × File)) (k : Nat) : File := (m.lookup k).getD 0

/-- One event of `To` on regions `r`. `extractSlice g region` is what the call of
`extractSlice` made by goroutine `g` on `region` returns: `none` for a non-nil `err`.
With per-iteration loop variables goroutine `g` reads its own iteration's `region`;
with one variable per loop it reads the dispatcher's current `region`. An event that
cannot happen in the state gives `none`. -/
def toStep (sem : LoopVar) (r : List Region) (extractSlice : Nat → Region → Option File)
    (s : ToState) : Event → Option ToState
  | Event.spawn =>
    if s.sending = false then
      match r[s.index]? with
      | some region =>
        some { s with
          sending := true
          region := region
          goroutines := Function.update s.goroutines s.index (Goroutine.receiving region) }
      | none => none
    else none
  | Event.handoff g =>
    if s.sending = true then
      match s.goroutines g with
      | Goroutine.receiving region =>
        some { s with
          sending := false
          index := s.index + 1
          goroutines := Function.update s.goroutines g (Goroutine.extracting region s.index) }
      | _ => none
    else none
  | Event.extracted g =>
    match s.goroutines g with
    | Goroutine.extracting region id =>
      match extractSlice g
          (match sem with
            | LoopVar.perIteration => region
            | LoopVar.perLoop => s.region) with
      | none => some { s with goroutines := Function.update s.goroutines g Goroutine.done }
      | some f =>
        some { s with goroutines := Function.update s.goroutines g (Goroutine.storing id f) }
    | _ => none
  | Event.stored g =>
    match s.goroutines g with
    | Goroutine.storing id f =>
      some { s with
        goroutines := Function.update s.goroutines g Goroutine.done
        file := mapSet s.file id f }
    | _ => none

/-- A run: the events of a schedule, one after the other. -/
def toRun (sem : LoopVar) (r : List Region) (extractSlice : Nat → Region → Option File) :
    ToState → List Event → Option ToState
  | s, [] => some s
  | s, e :: es =>
    match toStep sem r extractSlice s e with
    | none => none
    | some s' => toRun sem r extractSlice s' es

/-- The loop is over and `wg.Wait()` returns: every goroutine has returned. -/
def toFinished (r : List Region) (s : ToState) : Prop :=
  s.index = r.length ∧ s.sending = false ∧ ∀ g, g < r.length → s.goroutines g = Goroutine.done

instance (r : List Region) (s : ToState) : Decidable (toFinished r s) := by
  unfold toFinished
  infer_instance

/-- Lines 113-124: the keys in the order `range file` yields them, sorted by
`sort.Ints`, then `file[i]` for each. -/
def sortedFile (m : List (Nat × File)) (keys : List Nat) : List File :=
  (keys.insertionSort (fun a b => a ≤ b)).map (mapGet m)

/-- `Voice.To` on regions `r` under a meaning of the loop variable, a schedule of the
goroutines and an order `keys` in which `range file` yields the keys of the map. `none` when the schedule is not a
complete run of `To` or `keys` is not an enumeration of the keys. -/
def To (sem : LoopVar) (r : List Region) (extractSlice : Nat → Region → Option File)
    (schedule : List Event) (keys : List Nat) : Option (List File) :=
  match toRun sem r extractSlice ToState.init schedule with
  | none => none
  | some s =>
    if toFinished r s ∧ keys.Perm (s.file.map Prod.fst) then some (sortedFile s.file keys)
    else none

/-- The handles of the regions whose extraction succeeded, by ascending input index. -/
def successfulHandles (r : List Region) (extractSlice : Nat → Region → Option File) :
    List File :=
  (List.range r.length).filterMap (fun i => (r[i]?).bind (extractSlice i))

/-- The schedule that runs the goroutines one after the other. -/
def sequentialSchedule (r : List Region) (extractSlice : Nat → Region → Option File) :
    Nat → List Event
  | 0 => []
  | g + 1 =>
    sequentialSchedule r extractSlice g ++
      [Event.spawn, Event.handoff g, Event.extracted g] ++
      (if ((r[g]?).bind (extractSlice g)).isSome then [Event.stored g] else [])

/-- Invariant of the reachable states of `To`. -/
structure ToInv (r : List Region) (extractSlice : Nat → Region → Option File)
    (s : ToState) : Prop where
  index_le : s.index ≤ r.length
  spawned : ∀ g, g < s.index → ∃ region, r[g]? = some region ∧
    (s.goroutines g = Goroutine.extracting region g ∨
      (∃ f, extractSlice g region = some f ∧ s.goroutines g = Goroutine.storing g f) ∨
      s.goroutines g = Goroutine.done)
  current : (s.sending = true ∧
      ∃ region, r[s.index]? = some region ∧ s.goroutines s.index = Goroutine.receiving region) ∨
    (s.sending = false ∧ s.goroutines s.index = Goroutine.unspawned)
  later : ∀ g, s.index < g → s.goroutines g = Goroutine.unspawned
  file_iff : ∀ k f, (k, f) ∈ s.file ↔
    (k < s.index ∧ s.goroutines k = Goroutine.done ∧
      ∃ region, r[k]? = some region ∧ extractSlice k region = some f)
  keys_nodup : (s.file.map Prod.fst).Nodup

/-- An extraction that always succeeds, with handle 10 for the region `{0, 1}` and 11
for any other. -/
def handleOf : Nat → Region → Option File :=
  fun _ region => if region = ⟨0, 1⟩ then some 10 else some 11

/-- Both goroutines are started and handed their ids before either extracts. -/
def lateSchedule : List Event :=
  [Event.spawn, Event.handoff 0, Event.spawn, Event.handoff 1, Event.extracted 0,
    Event.stored 0, Event.extracted 1, Event.stored 1]

/-- How far a goroutine has advanced. -/
def Goroutine.rank : Goroutine → Nat
  | Goroutine.unspawned => 0
  | Goroutine.receiving _ => 1
  | Goroutine.extracting _ _ => 2
  | Goroutine.storing _ _ => 3
  | Goroutine.done => 4

/-- Total advance of the first `n` goroutines. -/
def advance (n : Nat) (s : ToState) : Nat :=
  ((List.range n).map (fun g => (s.goroutines g).rank)).sum

/-! ## The region walk of `Regions` and `Vad` -/

/-- The loop body of `Regions` is the loop body of `Vad` at `frameActive = !is_silence`. -/
theorem regionsStep_eq_vadStep (c : Tunables) (th d : ℚ) (s : Walk) (e : ℚ) :
    regionsStep c th d s e = vadStep c d s (isActive th e) := by
  unfold regionsStep vadStep isActive
  by_cases h0 : s.region_start = 0 <;> by_cases h1 : e ≤ th <;>
    by_cases h2 : c.MAX_REGION_SIZE ≤ s.elapsed_time - s.region_start <;> simp [h0, h1, h2]

theorem regionsLoop_eq_foldl (c : Tunables) (th d : ℚ) (s : Walk) (es : List ℚ) :
    regionsLoop c th d s es = (es.map (isActive th)).foldl (vadStep c d) s := by
  unfold regionsLoop
  rw [List.foldl_map]
  congr 1
  funext s e
  exact regionsStep_eq_vadStep c th d s e

theorem vadLoop_eq (c : Tunables) (d : ℚ) (s : Walk) (frames : List VadFrame) :
    vadLoop c d s frames = none ∨
      vadLoop c d s frames
        = some (((okFrames frames).map VadFrame.frameActive).foldl (vadStep c d) s) := by
  induction frames generalizing s with
  | nil => right; rfl
  | cons f rest ih =>
    cases hf : f.readErr with
    | none => simpa [vadLoop, okFrames, hf] using ih _
    | EOF => right; simp [vadLoop, okFrames, hf]
    | other => left; simp [vadLoop, hf]

theorem Vad_eq (c : Tunables) (v : Voice) (frames : List VadFrame) :
    Vad c v frames = [] ∨
      Vad c v frames = (((okFrames frames).map VadFrame.frameActive).foldl
        (vadStep c v.chunkDuration) Walk.init).regions := by
  unfold Vad
  rcases vadLoop_eq c v.chunkDuration Walk.init frames with h | h
  · left; rw [h]
  · right; rw [h]

theorem okFrames_append (frames : List VadFrame) :
    ∃ rest, frames = okFrames frames ++ rest := by
  induction frames with
  | nil => exact ⟨[], rfl⟩
  | cons f rest ih =>
    by_cases hf : f.readErr = ReadErr.none
    · obtain ⟨t, ht⟩ := ih
      refine ⟨t, ?_⟩
      simp only [okFrames, hf, if_true, List.cons_append]
      rw [← ht]
    · exact ⟨f :: rest, by simp [okFrames, hf]⟩

theorem okFrames_ok (frames : List VadFrame) :
    ∀ f ∈ okFrames frames, f.readErr = ReadErr.none := by
  induction frames with
  | nil => simp [okFrames]
  | cons f rest ih =>
    by_cases hf : f.readErr = ReadErr.none
    · simp only [okFrames, hf, if_true, List.mem_cons]
      rintro g (rfl | hg)
      · exact hf
      · exact ih g hg
    · simp [okFrames, hf]

/-- Induction over the chunks walked so far: a property of (prefix, state) that holds
initially and is preserved by every loop iteration holds at the end of the walk. -/
theorem walk_induction (c : Tunables) (d : ℚ) (J : List Bool → Walk → Prop) (s0 : Walk)
    (h0 : J [] s0)
    (hstep : ∀ l s a, J l s → J (l ++ [a]) (vadStep c d s a)) :
    ∀ acts, J acts (acts.foldl (vadStep c d) s0) := by
  intro acts
  induction acts using List.reverseRecOn with
  | nil => exact h0
  | append_singleton l a ih =>
    rw [List.foldl_append]
    exact hstep l _ a ih

/-- The four outcomes of one loop iteration. -/
theorem vadStep_cases (c : Tunables) (d : ℚ) (s : Walk) (a : Bool) :
    (s.region_start ≠ 0 ∧ (c.MAX_REGION_SIZE ≤ s.elapsed_time - s.region_start ∨ a = false) ∧
        c.MIN_REGION_SIZE ≤ s.elapsed_time - s.region_start ∧
        vadStep c d s a
          = ⟨s.regions ++ [⟨s.region_start, s.elapsed_time⟩], 0, s.elapsed_time + d⟩) ∨
    (s.region_start ≠ 0 ∧ (c.MAX_REGION_SIZE ≤ s.elapsed_time - s.region_start ∨ a = false) ∧
        s.elapsed_time - s.region_start < c.MIN_REGION_SIZE ∧
        vadStep c d s a = ⟨s.regions, s.region_start, s.elapsed_time + d⟩) ∨
    (s.region_start = 0 ∧ a = true ∧
        vadStep c d s a = ⟨s.regions, s.elapsed_time, s.elapsed_time + d⟩) ∨
    (((s.region_start ≠ 0 ∧ s.elapsed_time - s.region_start < c.MAX_REGION_SIZE ∧ a = true) ∨
        (s.region_start = 0 ∧ a = false)) ∧
        vadStep c d s a = ⟨s.regions, s.region_start, s.elapsed_time + d⟩) := by
  unfold vadStep
  by_cases h0 : s.region_start = 0 <;> cases a <;>
    by_cases h2 : c.MAX_REGION_SIZE ≤ s.elapsed_time - s.region_start <;>
    by_cases h3 : c.MIN_REGION_SIZE ≤ s.elapsed_time - s.region_start <;>
    simp [h0, h2, h3, not_le.mp, lt_of_not_le]

/-- A property of the emitted regions that holds of the empty result and of every
walk from the zero state holds of the two detectors' outputs. -/
theorem detectors_of_walk (c : Tunables) (d : ℚ) (P : List Region → Prop) (hnil : P [])
    (hwalk : ∀ acts : List Bool, P (acts.foldl (vadStep c d) Walk.init).regions) :
    (∀ th es, P (regionsWalk c th d es)) ∧
      (∀ (v : Voice) frames, v.chunkDuration = d → P (Vad c v frames)) := by
  constructor
  · intro th es
    unfold regionsWalk
    rw [regionsLoop_eq_foldl]
    exact hwalk _
  · intro v frames hv
    rcases Vad_eq c v frames with h | h
    · rw [h]; exact hnil
    · rw [h, hv]; exact hwalk _

/-- No region in the walk state starts at `0`. -/
theorem walk_start_ne_zero (c : Tunables) (d : ℚ) (acts : List Bool) :
    ∀ r ∈ (acts.foldl (vadStep c d) Walk.init).regions, r.Start ≠ 0 := by
  refine walk_induction c d (fun _ s => ∀ r ∈ s.regions, r.Start ≠ 0) Walk.init ?_ ?_ acts
  · simp [Walk.init]
  · intro l s a ih
    rcases vadStep_cases c d s a with h | h | h | h
    · obtain ⟨h0, _, _, hs⟩ := h
      rw [hs]
      intro r hr
      simp only [List.mem_append, List.mem_singleton] at hr
      rcases hr with hr | rfl
      · exact ih r hr
      · exact h0
    · rw [h.2.2.2]; exact ih
    · rw [h.2.2]; exact ih
    · rw [h.2]; exact ih

theorem orderInv_step (c : Tunables) (d : ℚ) (hd : 0 < d) (s : Walk) (a : Bool)
    (ih : OrderInv s) : OrderInv (vadStep c d s a) := by
  obtain ⟨hp, hr, ho⟩ := ih
  rcases vadStep_cases c d s a with h | h | h | h
  · obtain ⟨h0, _, _, hs⟩ := h
    rw [hs]
    refine ⟨?_, ?_, ?_⟩
    · rw [List.pairwise_append]
      refine ⟨hp, List.pairwise_singleton _ _, ?_⟩
      intro x hx y hy
      simp only [List.mem_singleton] at hy
      subst hy
      have := hr x hx
      exact ⟨this.2.2 h0, lt_of_lt_of_le this.1 (this.2.2 h0)⟩
    · intro r hmem
      simp only [List.mem_append, List.mem_singleton] at hmem
      rcases hmem with hmem | rfl
      · have := hr r hmem
        exact ⟨this.1, by simp only; linarith, fun h => absurd rfl h⟩
      · exact ⟨ho h0, by simp only; linarith, fun h => absurd rfl h⟩
    · intro h; exact absurd rfl h
  · obtain ⟨h0, _, _, hs⟩ := h
    rw [hs]
    refine ⟨hp, ?_, ?_⟩
    · intro r hmem
      have := hr r hmem
      exact ⟨this.1, by simp only; linarith, fun _ => this.2.2 h0⟩
    · intro _; have := ho h0; simp only; linarith
  · obtain ⟨h0, _, hs⟩ := h
    rw [hs]
    refine ⟨hp, ?_, ?_⟩
    · intro r hmem
      have := hr r hmem
      exact ⟨this.1, by simp only; linarith, fun _ => le_of_lt this.2.1⟩
    · intro _; simp only; linarith
  · obtain ⟨_, hs⟩ := h
    rw [hs]
    refine ⟨hp, ?_, ?_⟩
    · intro r hmem
      have := hr r hmem
      exact ⟨this.1, by simp only; linarith, this.2.2⟩
    · intro h0; have := ho h0; simp only; linarith

theorem walk_pairwise (c : Tunables) (d : ℚ) (hd : 0 < d) (acts : List Bool) :
    (acts.foldl (vadStep c d) Walk.init).regions.Pairwise Before := by
  have := walk_induction c d (fun _ s => OrderInv s) Walk.init
    ⟨by simp [Walk.init], by simp [Walk.init], by simp [Walk.init]⟩
    (fun _ s a ih => orderInv_step c d hd s a ih) acts
  exact this.1

/-- Consecutive entries of a pairwise-ordered list are ordered. -/
theorem consecutive_of_pairwise (out : List Region) (hp : out.Pairwise Before)
    (i : Nat) (r r' : Region) (h1 : out[i]? = some r) (h2 : out[i + 1]? = some r') :
    r.End ≤ r'.Start ∧ r.Start < r'.Start := by
  rw [List.getElem?_eq_some] at h1 h2
  obtain ⟨hi, rfl⟩ := h1
  obtain ⟨hj, rfl⟩ := h2
  exact (List.pairwise_iff_getElem.mp hp) i (i + 1) hi hj (Nat.lt_succ_self i)

/-- A run of silent chunks leaves a closed walk closed and emits nothing. -/
theorem run_silent_closed (c : Tunables) (d : ℚ) (regs : List Region) (n : Nat) (el : ℚ) :
    (List.replicate n false).foldl (vadStep c d) ⟨regs, 0, el⟩ = ⟨regs, 0, el + n * d⟩ := by
  induction n generalizing el with
  | zero => simp
  | succ n ih =>
    rw [List.replicate_succ, List.foldl_cons]
    have : vadStep c d ⟨regs, 0, el⟩ false = ⟨regs, 0, el + d⟩ := by simp [vadStep]
    rw [this, ih]
    congr 1
    push_cast
    ring

/-- A run of active chunks keeps an open region open while it is shorter than
`MAX_REGION_SIZE` at every chunk of the run. -/
theorem run_active_open (c : Tunables) (d : ℚ) (hd : 0 ≤ d) (regs : List Region) (rs : ℚ)
    (hrs : rs ≠ 0) (n : Nat) (el : ℚ) (h : el + n * d - rs < c.MAX_REGION_SIZE + d) :
    (List.replicate n true).foldl (vadStep c d) ⟨regs, rs, el⟩ = ⟨regs, rs, el + n * d⟩ := by
  induction n generalizing el with
  | zero => simp
  | succ n ih =>
    rw [List.replicate_succ, List.foldl_cons]
    push_cast at h
    have hn : (0 : ℚ) ≤ n * d := mul_nonneg (Nat.cast_nonneg n) hd
    have hlt : ¬ c.MAX_REGION_SIZE ≤ el - rs := by
      rw [not_le]
      linarith
    have : vadStep c d ⟨regs, rs, el⟩ true = ⟨regs, rs, el + d⟩ := by
      simp [vadStep, hrs, hlt]
    rw [this, ih (el + d) (by linarith)]
    congr 1
    push_cast
    ring

/-- A run of `k ≥ 1` active chunks met by a closed walk at a non-zero time opens a
region at that time and keeps it open when `k * d ≤ MAX_REGION_SIZE`. -/
theorem run_active_closed (c : Tunables) (d : ℚ) (hd : 0 < d) (regs : List Region)
    (k : Nat) (hk : 0 < k) (el : ℚ) (hel : el ≠ 0) (h : (k : ℚ) * d ≤ c.MAX_REGION_SIZE) :
    (List.replicate k true).foldl (vadStep c d) ⟨regs, 0, el⟩ = ⟨regs, el, el + k * d⟩ := by
  obtain ⟨n, rfl⟩ : ∃ n, k = n + 1 := ⟨k - 1, by omega⟩
  rw [List.replicate_succ, List.foldl_cons]
  have : vadStep c d ⟨regs, 0, el⟩ true = ⟨regs, el, el + d⟩ := by simp [vadStep]
  push_cast at h
  rw [this, run_active_open c d (le_of_lt hd) regs el hel n (el + d) (by linarith)]
  congr 1
  push_cast
  ring

/-- A list whose entries all equal `b` is `replicate`. -/
theorem map_isActive_const (th : ℚ) (b : Bool) (es : List ℚ)
    (h : ∀ e ∈ es, isActive th e = b) : es.map (isActive th) = List.replicate es.length b := by
  rw [List.eq_replicate_iff]
  refine ⟨by simp, ?_⟩
  intro x hx
  obtain ⟨e, he, rfl⟩ := List.mem_map.mp hx
  exact h e he

/-- When every read succeeds the `Vad` loop walks every frame. -/
theorem vadLoop_all_ok (c : Tunables) (d : ℚ) (s : Walk) (frames : List VadFrame)
    (h : ∀ f ∈ frames, f.readErr = ReadErr.none) :
    vadLoop c d s frames = some ((frames.map VadFrame.frameActive).foldl (vadStep c d) s) := by
  induction frames generalizing s with
  | nil => rfl
  | cons f rest ih =>
    have hf := h f (List.mem_cons_self _ _)
    simp only [vadLoop, hf, List.map_cons, List.foldl_cons]
    exact ih _ (fun g hg => h g (List.mem_cons_of_mem _ hg))

/-- A failed read (other than `io.EOF`) after successful ones makes the loop return
`nil`. -/
theorem vadLoop_read_failure (c : Tunables) (d : ℚ) (s : Walk) (pre : List VadFrame)
    (f : VadFrame) (post : List VadFrame) (h : ∀ g ∈ pre, g.readErr = ReadErr.none)
    (hf : f.readErr = ReadErr.other) : vadLoop c d s (pre ++ f :: post) = none := by
  induction pre generalizing s with
  | nil => simp [vadLoop, hf]
  | cons g rest ih =>
    have hg := h g (List.mem_cons_self _ _)
    simp only [List.cons_append, vadLoop, hg]
    exact ih _ (fun x hx => h x (List.mem_cons_of_mem _ hx))

/-- Once the first region of the walk is emitted it stays first; an open region in a
walk that has emitted nothing becomes the first region emitted. -/
theorem walk_head_start (c : Tunables) (d rs el : ℚ) (hrs : rs ≠ 0) (acts : List Bool) :
    ∀ r, (acts.foldl (vadStep c d) ⟨[], rs, el⟩).regions.head? = some r → r.Start = rs := by
  have := walk_induction c d
    (fun _ s => (s.regions = [] ∧ s.region_start = rs) ∨
      ∃ r tl, s.regions = r :: tl ∧ r.Start = rs) ⟨[], rs, el⟩ (Or.inl ⟨rfl, rfl⟩) ?_ acts
  · intro r hr
    rcases this with ⟨hnil, _⟩ | ⟨r', tl, hcons, hst⟩
    · rw [hnil] at hr; simp at hr
    · rw [hcons] at hr
      simp only [List.head?_cons, Option.some.injEq] at hr
      rw [← hr]; exact hst
  · intro l s a ih
    rcases vadStep_cases c d s a with h | h | h | h
    · obtain ⟨_, _, _, hs⟩ := h
      rw [hs]
      right
      rcases ih with ⟨hnil, hst⟩ | ⟨r', tl, hcons, hst⟩
      · exact ⟨⟨s.region_start, s.elapsed_time⟩, [], by simp [hnil], hst⟩
      · exact ⟨r', tl ++ [⟨s.region_start, s.elapsed_time⟩], by simp [hcons], hst⟩
    · rw [h.2.2.2]; exact ih
    · obtain ⟨h0, _, hs⟩ := h
      rw [hs]
      rcases ih with ⟨_, hst⟩ | ih
      · rw [hst] at h0; exact absurd h0 hrs
      · right; exact ih
    · rw [h.2]; exact ih

/-- What `Vad` returns when its loop ends at end-of-stream. -/
theorem Vad_of_vadLoop (c : Tunables) (v : Voice) (frames : List VadFrame) (s : Walk)
    (h : vadLoop c v.chunkDuration Walk.init frames = some s) : Vad c v frames = s.regions := by
  unfold Vad
  rw [h]

/-- What `Vad` returns when its loop ends at a failed read. -/
theorem Vad_of_vadLoop_none (c : Tunables) (v : Voice) (frames : List VadFrame)
    (h : vadLoop c v.chunkDuration Walk.init frames = none) : Vad c v frames = [] := by
  unfold Vad
  rw [h]

theorem regionsWalk_two_bursts :
    regionsWalk defaultTunables 0 (1 / 2) [0, 9, 9, 9, 0, 9, 9, 9, 0]
      = [⟨1 / 2, 2⟩, ⟨5 / 2, 4⟩] := by
  simp [regionsWalk, regionsLoop, regionsStep, Walk.init, defaultTunables]
  norm_num

/-- VAD mode at 16 kHz: one silent frame, 25 active frames, one silent frame. -/
theorem walk_burst_25 (d : ℚ) (hd : d = 1 / 50) (tail : VadFrame)
    (ht : tail.readErr = ReadErr.none) (hs : tail.frameActive = false) :
    vadLoop defaultTunables d Walk.init
        (silentFrame :: (List.replicate 25 activeFrame ++ [tail]))
      = some ⟨[⟨1 / 50, 13 / 25⟩], 0, 27 / 50⟩ := by
  subst hd
  rw [vadLoop_all_ok]
  · have hmap : (silentFrame :: (List.replicate 25 activeFrame ++ [tail])).map
        VadFrame.frameActive = [false] ++ (List.replicate 25 true ++ [false]) := by
      simp [List.map_replicate, silentFrame, activeFrame, hs]
    rw [hmap, List.foldl_append, List.foldl_append]
    have h1 : [false].foldl (vadStep defaultTunables (1 / 50)) Walk.init = ⟨[], 0, 1 / 50⟩ := by
      simp [vadStep, Walk.init]
    rw [h1, run_active_closed defaultTunables (1 / 50) (by norm_num) [] 25 (by norm_num) (1 / 50)
      (by norm_num) (by norm_num [defaultTunables])]
    simp [vadStep, defaultTunables]
    norm_num
  · intro f hf
    simp only [List.mem_cons, List.mem_append, List.not_mem_nil, or_false] at hf
    rcases hf with rfl | hf | rfl
    · rfl
    · rw [List.eq_of_mem_replicate hf]; rfl
    · exact ht

/-- `Regions` is the region walk over the energies it read, at their percentile. -/
theorem Regions_eq_regionsWalk (c : Tunables) (rms : Samples → Nat → ℚ)
    (percentile : List ℚ → ℚ → ℚ) (v : Voice) (reads : List SampleRead) :
    Regions c rms percentile v reads
      = regionsWalk c (percentile (readEnergies rms v.nChannels v.nChunks reads []) (1 / 5))
          v.chunkDuration (readEnergies rms v.nChannels v.nChunks reads []) := rfl

theorem vadStepFl_exact (c : Tunables) (d : ℚ) (s : Walk) (a : Bool) :
    vadStepFl exact c d s a = vadStep c d s a := rfl

theorem regionsStepFl_exact (c : Tunables) (th d : ℚ) (s : Walk) (e : ℚ) :
    regionsStepFl exact c th d s e = regionsStep c th d s e := rfl

theorem regionsWalkFl_exact (c : Tunables) (th d : ℚ) (es : List ℚ) :
    regionsWalkFl exact c th d es = regionsWalk c th d es := rfl

theorem vadLoopFl_exact (c : Tunables) (d : ℚ) (s : Walk) (frames : List VadFrame) :
    vadLoopFl exact c d s frames = vadLoop c d s frames := by
  induction frames generalizing s with
  | nil => rfl
  | cons f rest ih =>
    cases hf : f.readErr <;> simp [vadLoopFl, vadLoop, hf, ih, vadStepFl_exact]

theorem VadFl_exact (c : Tunables) (v : Voice) (frames : List VadFrame) :
    VadFl exact c v frames = Vad c v frames := by
  unfold VadFl Vad
  rw [vadLoopFl_exact]

theorem regionsStepFl_eq_vadStepFl (fl : ℚ → ℚ) (c : Tunables) (th d : ℚ) (s : Walk) (e : ℚ) :
    regionsStepFl fl c th d s e = vadStepFl fl c d s (isActive th e) := by
  unfold regionsStepFl vadStepFl isActive
  by_cases h0 : s.region_start = 0 <;> by_cases h1 : e ≤ th <;>
    by_cases h2 : c.MAX_REGION_SIZE ≤ fl (s.elapsed_time - s.region_start) <;>
    simp [h0, h1, h2]

theorem regionsLoopFl_eq_foldl (fl : ℚ → ℚ) (c : Tunables) (th d : ℚ) (s : Walk)
    (es : List ℚ) :
    regionsLoopFl fl c th d s es = (es.map (isActive th)).foldl (vadStepFl fl c d) s := by
  unfold regionsLoopFl
  rw [List.foldl_map]
  congr 1
  funext s e
  exact regionsStepFl_eq_vadStepFl fl c th d s e

theorem vadLoopFl_eq (fl : ℚ → ℚ) (c : Tunables) (d : ℚ) (s : Walk)
    (frames : List VadFrame) :
    vadLoopFl fl c d s frames = none ∨
      vadLoopFl fl c d s frames
        = some (((okFrames frames).map VadFrame.frameActive).foldl (vadStepFl fl c d) s) := by
  induction frames generalizing s with
  | nil => right; rfl
  | cons f rest ih =>
    cases hf : f.readErr with
    | none => simpa [vadLoopFl, okFrames, hf] using ih _
    | EOF => right; simp [vadLoopFl, okFrames, hf]
    | other => left; simp [vadLoopFl, hf]

theorem VadFl_eq (fl : ℚ → ℚ) (c : Tunables) (v : Voice) (frames : List VadFrame) :
    VadFl fl c v frames = [] ∨
      VadFl fl c v frames = (((okFrames frames).map VadFrame.frameActive).foldl
        (vadStepFl fl c v.chunkDuration) Walk.init).regions := by
  unfold VadFl
  rcases vadLoopFl_eq fl c v.chunkDuration Walk.init frames with h | h
  · left; rw [h]
  · right; rw [h]

theorem VadFl_of_vadLoopFl (fl : ℚ → ℚ) (c : Tunables) (v : Voice) (frames : List VadFrame)
    (s : Walk) (h : vadLoopFl fl c v.chunkDuration Walk.init frames = some s) :
    VadFl fl c v frames = s.regions := by
  unfold VadFl
  rw [h]

theorem vadLoopFl_all_ok (fl : ℚ → ℚ) (c : Tunables) (d : ℚ) (s : Walk)
    (frames : List VadFrame) (h : ∀ f ∈ frames, f.readErr = ReadErr.none) :
    vadLoopFl fl c d s frames
      = some ((frames.map VadFrame.frameActive).foldl (vadStepFl fl c d) s) := by
  induction frames generalizing s with
  | nil => rfl
  | cons f rest ih =>
    have hf := h f (List.mem_cons_self _ _)
    simp only [vadLoopFl, hf, List.map_cons, List.foldl_cons]
    exact ih _ (fun g hg => h g (List.mem_cons_of_mem _ hg))

/-- Induction over the chunks walked so far, under rounding. -/
theorem walkFl_induction (fl : ℚ → ℚ) (c : Tunables) (d : ℚ) (J : List Bool → Walk → Prop)
    (s0 : Walk) (h0 : J [] s0)
    (hstep : ∀ l s a, J l s → J (l ++ [a]) (vadStepFl fl c d s a)) :
    ∀ acts, J acts (acts.foldl (vadStepFl fl c d) s0) := by
  intro acts
  induction acts using List.reverseRecOn with
  | nil => exact h0
  | append_singleton l a ih =>
    rw [List.foldl_append]
    exact hstep l _ a ih

/-- The four outcomes of one loop iteration under rounding. -/
theorem vadStepFl_cases (fl : ℚ → ℚ) (c : Tunables) (d : ℚ) (s : Walk) (a : Bool) :
    (s.region_start ≠ 0 ∧
        (c.MAX_REGION_SIZE ≤ fl (s.elapsed_time - s.region_start) ∨ a = false) ∧
        c.MIN_REGION_SIZE ≤ fl (s.elapsed_time - s.region_start) ∧
        vadStepFl fl c d s a
          = ⟨s.regions ++ [⟨s.region_start, s.elapsed_time⟩], 0, fl (s.elapsed_time + d)⟩) ∨
    (s.region_start ≠ 0 ∧
        (c.MAX_REGION_SIZE ≤ fl (s.elapsed_time - s.region_start) ∨ a = false) ∧
        fl (s.elapsed_time - s.region_start) < c.MIN_REGION_SIZE ∧
        vadStepFl fl c d s a = ⟨s.regions, s.region_start, fl (s.elapsed_time + d)⟩) ∨
    (s.region_start = 0 ∧ a = true ∧
        vadStepFl fl c d s a = ⟨s.regions, s.elapsed_time, fl (s.elapsed_time + d)⟩) ∨
    (((s.region_start ≠ 0 ∧ fl (s.elapsed_time - s.region_start) < c.MAX_REGION_SIZE ∧
          a = true) ∨
        (s.region_start = 0 ∧ a = false)) ∧
        vadStepFl fl c d s a = ⟨s.regions, s.region_start, fl (s.elapsed_time + d)⟩) := by
  unfold vadStepFl
  by_cases h0 : s.region_start = 0 <;> cases a <;>
    by_cases h2 : c.MAX_REGION_SIZE ≤ fl (s.elapsed_time - s.region_start) <;>
    by_cases h3 : c.MIN_REGION_SIZE ≤ fl (s.elapsed_time - s.region_start) <;>
    simp [h0, h2, h3, not_le.mp, lt_of_not_le]

/-- A property of the emitted regions that holds of the empty result and of every
walk from the zero state holds of the two detectors' outputs, under rounding. -/
theorem detectorsFl_of_walk (fl : ℚ → ℚ) (c : Tunables) (d : ℚ) (P : List Region → Prop)
    (hnil : P [])
    (hwalk : ∀ acts : List Bool, P (acts.foldl (vadStepFl fl c d) Walk.init).regions) :
    (∀ th es, P (regionsWalkFl fl c th d es)) ∧
      (∀ (v : Voice) frames, v.chunkDuration = d → P (VadFl fl c v frames)) := by
  constructor
  · intro th es
    unfold regionsWalkFl
    rw [regionsLoopFl_eq_foldl]
    exact hwalk _
  · intro v frames hv
    rcases VadFl_eq fl c v frames with h | h
    · rw [h]; exact hnil
    · rw [h, hv]; exact hwalk _

theorem maxInvFl_step (fl : ℚ → ℚ) (c : Tunables) (d : ℚ)
    (hmm : c.MIN_REGION_SIZE ≤ c.MAX_REGION_SIZE) (s : Walk) (a : Bool)
    (ih : MaxInvFl fl c d s) : MaxInvFl fl c d (vadStepFl fl c d s a) := by
  obtain ⟨hr, ho⟩ := ih
  rcases vadStepFl_cases fl c d s a with h | h | h | h
  · obtain ⟨h0, _, _, hs⟩ := h
    rw [hs]
    refine ⟨?_, fun h => absurd rfl h⟩
    intro r hmem
    simp only [List.mem_append, List.mem_singleton] at hmem
    rcases hmem with hmem | rfl
    · exact hr r hmem
    · exact ho h0
  · obtain ⟨_, _, hlt, hs⟩ := h
    rw [hs]
    exact ⟨hr, fun _ => ⟨s.elapsed_time, rfl, Or.inr (lt_of_lt_of_le hlt hmm)⟩⟩
  · obtain ⟨_, _, hs⟩ := h
    rw [hs]
    exact ⟨hr, fun _ => ⟨s.elapsed_time, rfl, Or.inl rfl⟩⟩
  · obtain ⟨hc, hs⟩ := h
    rw [hs]
    refine ⟨hr, fun h0 => ?_⟩
    rcases hc with ⟨_, hlt, _⟩ | ⟨hz, _⟩
    · exact ⟨s.elapsed_time, rfl, Or.inr hlt⟩
    · exact absurd hz h0

theorem walkFl_max_length (fl : ℚ → ℚ) (c : Tunables) (d : ℚ)
    (hmm : c.MIN_REGION_SIZE ≤ c.MAX_REGION_SIZE) (acts : List Bool) :
    ∀ r ∈ (acts.foldl (vadStepFl fl c d) Walk.init).regions, ∃ p, r.End = fl (p + d) ∧
      (p = r.Start ∨ fl (p - r.Start) < c.MAX_REGION_SIZE) := by
  have := walkFl_induction fl c d (fun _ s => MaxInvFl fl c d s) Walk.init
    ⟨by simp [Walk.init], by simp [Walk.init]⟩
    (fun _ s a ih => maxInvFl_step fl c d hmm s a ih) acts
  exact this.1

theorem endInvFl_step (fl : ℚ → ℚ) (c : Tunables) (d : ℚ) (l : List Bool) (s : Walk)
    (a : Bool) (ih : EndInvFl fl c d l s) :
    EndInvFl fl c d (l ++ [a]) (vadStepFl fl c d s a) := by
  obtain ⟨hel, hr⟩ := ih
  have hlen : elapsedFl fl d (l ++ [a]).length = fl (s.elapsed_time + d) := by
    simp only [List.length_append, List.length_singleton, elapsedFl, hel]
  have hold : ∀ r ∈ s.regions, ∃ i, i < (l ++ [a]).length ∧ r.End = elapsedFl fl d i ∧
      ((l ++ [a])[i]? = some false ∨ c.MAX_REGION_SIZE ≤ fl (r.End - r.Start)) := by
    intro r hmem
    obtain ⟨i, hi, he, hc⟩ := hr r hmem
    refine ⟨i, by simp only [List.length_append, List.length_singleton]; omega, he, ?_⟩
    rw [List.getElem?_append_left hi]
    exact hc
  rcases vadStepFl_cases fl c d s a with h | h | h | h
  · obtain ⟨_, hc, _, hs⟩ := h
    rw [hs]
    refine ⟨hlen.symm, ?_⟩
    intro r hmem
    simp only [List.mem_append, List.mem_singleton] at hmem
    rcases hmem with hmem | rfl
    · exact hold r hmem
    · refine ⟨l.length, by simp, hel, ?_⟩
      rcases hc with hc | hc
      · right; exact hc
      · left; simp [hc]
  · rw [h.2.2.2]; exact ⟨hlen.symm, hold⟩
  · rw [h.2.2]; exact ⟨hlen.symm, hold⟩
  · rw [h.2]; exact ⟨hlen.symm, hold⟩

theorem walkFl_end_inside (fl : ℚ → ℚ) (c : Tunables) (d : ℚ) (acts : List Bool) :
    ∀ r ∈ (acts.foldl (vadStepFl fl c d) Walk.init).regions, ∃ i, i < acts.length ∧
      r.End = elapsedFl fl d i ∧
      (acts[i]? = some false ∨ c.MAX_REGION_SIZE ≤ fl (r.End - r.Start)) := by
  have := walkFl_induction fl c d (fun l s => EndInvFl fl c d l s) Walk.init
    ⟨by simp [Walk.init, elapsedFl], by simp [Walk.init]⟩
    (fun l s a ih => endInvFl_step fl c d l s a ih) acts
  exact this.2

/-- A run of silent chunks leaves a closed walk closed and emits nothing. -/
theorem runFl_silent_closed (fl : ℚ → ℚ) (c : Tunables) (d : ℚ) (regs : List Region)
    (n j : Nat) :
    (List.replicate n false).foldl (vadStepFl fl c d) ⟨regs, 0, elapsedFl fl d j⟩
      = ⟨regs, 0, elapsedFl fl d (j + n)⟩ := by
  induction n generalizing j with
  | zero => simp
  | succ n ih =>
    rw [List.replicate_succ, List.foldl_cons]
    have : vadStepFl fl c d ⟨regs, 0, elapsedFl fl d j⟩ false
        = ⟨regs, 0, elapsedFl fl d (j + 1)⟩ := by simp [vadStepFl, elapsedFl]
    rw [this, ih (j + 1)]
    congr 2
    omega

/-- A run of active chunks keeps an open region open while its computed length stays
below `MAX_REGION_SIZE` at every chunk of the run. -/
theorem runFl_active_open (fl : ℚ → ℚ) (c : Tunables) (d : ℚ) (regs : List Region) (rs : ℚ)
    (hrs : rs ≠ 0) (n j : Nat)
    (h : ∀ i, j ≤ i → i < j + n → fl (elapsedFl fl d i - rs) < c.MAX_REGION_SIZE) :
    (List.replicate n true).foldl (vadStepFl fl c d) ⟨regs, rs, elapsedFl fl d j⟩
      = ⟨regs, rs, elapsedFl fl d (j + n)⟩ := by
  induction n generalizing j with
  | zero => simp
  | succ n ih =>
    rw [List.replicate_succ, List.foldl_cons]
    have hlt : ¬ c.MAX_REGION_SIZE ≤ fl (elapsedFl fl d j - rs) :=
      not_le.mpr (h j le_rfl (by omega))
    have : vadStepFl fl c d ⟨regs, rs, elapsedFl fl d j⟩ true
        = ⟨regs, rs, elapsedFl fl d (j + 1)⟩ := by
      simp [vadStepFl, hrs, hlt, elapsedFl]
    rw [this, ih (j + 1) (fun i hi hi' => h i (by omega) (by omega))]
    congr 2
    omega

/-- A run of `k ≥ 1` active chunks met by a closed walk at a non-zero time opens a
region at that time and keeps it open while its computed length stays below
`MAX_REGION_SIZE`. -/
theorem runFl_active_closed (fl : ℚ → ℚ) (c : Tunables) (d : ℚ) (regs : List Region)
    (k j : Nat) (hk : 0 < k) (hne : elapsedFl fl d j ≠ 0)
    (h : ∀ i, j < i → i < j + k →
      fl (elapsedFl fl d i - elapsedFl fl d j) < c.MAX_REGION_SIZE) :
    (List.replicate k true).foldl (vadStepFl fl c d) ⟨regs, 0, elapsedFl fl d j⟩
      = ⟨regs, elapsedFl fl d j, elapsedFl fl d (j + k)⟩ := by
  obtain ⟨n, rfl⟩ : ∃ n, k = n + 1 := ⟨k - 1, by omega⟩
  rw [List.replicate_succ, List.foldl_cons]
  have : vadStepFl fl c d ⟨regs, 0, elapsedFl fl d j⟩ true
      = ⟨regs, elapsedFl fl d j, elapsedFl fl d (j + 1)⟩ := by simp [vadStepFl, elapsedFl]
  rw [this, runFl_active_open fl c d regs _ hne n (j + 1)
    (fun i hi hi' => h i (by omega) (by omega))]
  congr 2
  omega

/-- A silent chunk met by an open region closes it when its computed length has
reached `MIN_REGION_SIZE`, and leaves it open otherwise. -/
theorem stepFl_silent_open (fl : ℚ → ℚ) (c : Tunables) (d : ℚ) (regs : List Region) (rs : ℚ)
    (hrs : rs ≠ 0) (j : Nat) :
    (c.MIN_REGION_SIZE ≤ fl (elapsedFl fl d j - rs) →
      vadStepFl fl c d ⟨regs, rs, elapsedFl fl d j⟩ false
        = ⟨regs ++ [⟨rs, elapsedFl fl d j⟩], 0, elapsedFl fl d (j + 1)⟩) ∧
    (fl (elapsedFl fl d j - rs) < c.MIN_REGION_SIZE →
      vadStepFl fl c d ⟨regs, rs, elapsedFl fl d j⟩ false
        = ⟨regs, rs, elapsedFl fl d (j + 1)⟩) := by
  constructor
  · intro h
    simp [vadStepFl, hrs, h, elapsedFl]
  · intro h
    simp [vadStepFl, hrs, not_le.mpr h, elapsedFl]

theorem pow_bitLength_le (fuel n : Nat) (hn : 0 < n) : 2 ^ (bitLength fuel n - 1) ≤ n := by
  induction fuel generalizing n with
  | zero => simpa [bitLength] using hn
  | succ fuel ih =>
    have hn0 : n ≠ 0 := Nat.pos_iff_ne_zero.mp hn
    simp only [bitLength, hn0, if_false, Nat.add_sub_cancel]
    rcases Nat.eq_zero_or_pos (n / 2) with h0 | hpos
    · rw [h0]
      have : bitLength fuel 0 = 0 := by cases fuel <;> simp [bitLength]
      rw [this]
      simpa using hn
    · have h := ih (n / 2) hpos
      rcases Nat.eq_zero_or_pos (bitLength fuel (n / 2)) with hb | hb
      · rw [hb]; simpa using hn
      · have hpow : 2 ^ bitLength fuel (n / 2) = 2 * 2 ^ (bitLength fuel (n / 2) - 1) := by
          rw [← pow_succ']
          congr 1
          omega
        rw [hpow]
        have := Nat.div_mul_le_self n 2
        omega

theorem lt_pow_bitLength (fuel n : Nat) (h : bitLength fuel n < fuel) :
    n < 2 ^ bitLength fuel n := by
  induction fuel generalizing n with
  | zero => exact absurd h (Nat.not_lt_zero _)
  | succ fuel ih =>
    by_cases hn0 : n = 0
    · subst hn0
      simp
    · simp only [bitLength, hn0, if_false] at h ⊢
      have h' := ih (n / 2) (by omega)
      rw [pow_succ]
      have := Nat.lt_succ_iff.mpr (Nat.le_refl (n / 2))
      have hmod := Nat.div_add_mod n 2
      have hlt := Nat.mod_lt n (show 0 < 2 by norm_num)
      omega

theorem roundHalfEven_close (q : ℚ) : |(roundHalfEven q : ℚ) - q| ≤ 1 / 2 := by
  have hf : ((⌊q⌋ : ℤ) : ℚ) ≤ q := Int.floor_le q
  have hlt : q < ((⌊q⌋ : ℤ) : ℚ) + 1 := Int.lt_floor_add_one q
  unfold roundHalfEven
  simp only
  rw [abs_le]
  split_ifs with h1 h2 h3
  · constructor <;> linarith
  · push_cast
    constructor <;> linarith
  · have h1' := not_lt.mp h1
    have h2' := not_lt.mp h2
    constructor <;> linarith
  · have h1' := not_lt.mp h1
    have h2' := not_lt.mp h2
    push_cast
    constructor <;> linarith

/-- On `[-11, 11]` the value `float64 x` is within `1e-9` of `x` (in fact within
`2 ^ (-50)`). -/
theorem float64_close (x : ℚ) (hx : |x| ≤ 11) : |float64 x - x| ≤ 1 / 1000000000 := by
  by_cases h0 : x = 0
  · simp [float64, h0]
  · have hnum : x.num ≠ 0 := fun h => h0 (Rat.num_eq_zero.mp h)
    have hn : 0 < x.num.natAbs := Int.natAbs_pos.mpr hnum
    have hden : 0 < x.den := x.den_pos
    -- the exponent found from the bit lengths is at most 23
    have hbits : bitLength 2048 x.num.natAbs ≤ bitLength 2048 x.den + 23 := by
      by_contra hcon
      have hcon' : bitLength 2048 x.den + 24 ≤ bitLength 2048 x.num.natAbs := by omega
      have hle : bitLength 2048 x.num.natAbs ≤ 2048 := by
        have : ∀ f n : Nat, bitLength f n ≤ f := by
          intro f
          induction f with
          | zero => intro n; simp [bitLength]
          | succ f ih =>
            intro n
            by_cases hz : n = 0
            · simp [bitLength, hz]
            · simp only [bitLength, hz, if_false]
              have := ih (n / 2)
              omega
        exact this _ _
      have hdlt := lt_pow_bitLength 2048 x.den (by omega)
      have hnge := pow_bitLength_le 2048 x.num.natAbs hn
      have habs : (x.num.natAbs : ℚ) ≤ 11 * (x.den : ℚ) := by
        have hxe : |x| = (x.num.natAbs : ℚ) / (x.den : ℚ) := by
          conv_lhs => rw [← Rat.num_div_den x]
          rw [abs_div, Nat.abs_cast, Nat.cast_natAbs, Int.cast_abs]
        rw [hxe, div_le_iff₀ (by exact_mod_cast hden)] at hx
        exact hx
      have habsN : x.num.natAbs ≤ 11 * x.den := by exact_mod_cast habs
      have hp : 2 ^ (bitLength 2048 x.den + 23) ≤ 2 ^ (bitLength 2048 x.num.natAbs - 1) :=
        Nat.pow_le_pow_right (by norm_num) (by omega)
      have hsplit : 2 ^ (bitLength 2048 x.den + 23)
          = 2 ^ bitLength 2048 x.den * 8388608 := by
        rw [pow_add]
        norm_num
      omega
    unfold float64
    simp only [h0, if_false]
    have key : ∀ e : ℤ, e ≤ 23 →
        |(roundHalfEven (x * (2 : ℚ) ^ (52 - e)) : ℚ) / (2 : ℚ) ^ (52 - e) - x|
          ≤ 1 / 1000000000 := by
      intro e he
      have hs : (0 : ℚ) < (2 : ℚ) ^ (52 - e) := zpow_pos (by norm_num) _
      have hbig : (2 : ℚ) ^ (29 : ℤ) ≤ (2 : ℚ) ^ (52 - e) :=
        zpow_le_zpow_right₀ (by norm_num) (by omega)
      have hbig' : (536870912 : ℚ) ≤ (2 : ℚ) ^ (52 - e) := by
        have : ((2 : ℚ) ^ (29 : ℤ)) = 536870912 := by norm_num
        rw [this] at hbig
        exact hbig
      have hr := roundHalfEven_close (x * (2 : ℚ) ^ (52 - e))
      have heq : (roundHalfEven (x * (2 : ℚ) ^ (52 - e)) : ℚ) / (2 : ℚ) ^ (52 - e) - x
          = ((roundHalfEven (x * (2 : ℚ) ^ (52 - e)) : ℚ) - x * (2 : ℚ) ^ (52 - e))
            / (2 : ℚ) ^ (52 - e) := by
        rw [sub_div, mul_div_assoc, div_self (ne_of_gt hs), mul_one]
      rw [heq, abs_div, abs_of_pos hs, div_le_iff₀ hs]
      calc |(roundHalfEven (x * (2 : ℚ) ^ (52 - e)) : ℚ) - x * (2 : ℚ) ^ (52 - e)|
          ≤ 1 / 2 := hr
        _ ≤ 1 / 1000000000 * 536870912 := by norm_num
        _ ≤ 1 / 1000000000 * (2 : ℚ) ^ (52 - e) := by
          apply mul_le_mul_of_nonneg_left hbig'
          norm_num
    split_ifs
    · exact key _ (by omega)
    · exact key _ (by omega)

/-- Claim C2. With a positive chunk duration, any two consecutive regions emitted by the
region walk of `Regions` (every energy sequence and threshold, hence by `Regions`
itself) and by `Vad` (every frame stream) satisfy `r[i].End ≤ r[i+1].Start`, and their
`Start` values strictly increase. -/
theorem C2_consecutive_regions_ordered (c : Tunables) :
    (∀ (th d : ℚ) (es : List ℚ), 0 < d → ∀ (i : Nat) (r r' : Region),
        (regionsWalk c th d es)[i]? = some r → (regionsWalk c th d es)[i + 1]? = some r' →
        r.End ≤ r'.Start ∧ r.Start < r'.Start) ∧
    (∀ (rms : Samples → Nat → ℚ) (percentile : List ℚ → ℚ → ℚ) (v : Voice)
        (reads : List SampleRead), 0 < v.chunkDuration → ∀ (i : Nat) (r r' : Region),
        (Regions c rms percentile v reads)[i]? = some r →
        (Regions c rms percentile v reads)[i + 1]? = some r' →
        r.End ≤ r'.Start ∧ r.Start < r'.Start) ∧
    (∀ (v : Voice) (frames : List VadFrame), 0 < v.chunkDuration →
        ∀ (i : Nat) (r r' : Region),
        (Vad c v frames)[i]? = some r → (Vad c v frames)[i + 1]? = some r' →
        r.End ≤ r'.Start ∧ r.Start < r'.Start) := by
  have hw : ∀ (th d : ℚ) (es : List ℚ), 0 < d → ∀ (i : Nat) (r r' : Region),
      (regionsWalk c th d es)[i]? = some r → (regionsWalk c th d es)[i + 1]? = some r' →
      r.End ≤ r'.Start ∧ r.Start < r'.Start := by
    intro th d es hd i r r' h1 h2
    exact consecutive_of_pairwise _
      ((detectors_of_walk c d (fun out => out.Pairwise Before) List.Pairwise.nil
        (walk_pairwise c d hd)).1 th es) i r r' h1 h2
  refine ⟨hw, ?_, ?_⟩
  · intro rms percentile v reads hd i r r' h1 h2
    exact hw _ v.chunkDuration _ hd i r r' h1 h2
  · intro v frames hd i r r' h1 h2
    exact consecutive_of_pairwise _
      ((detectors_of_walk c v.chunkDuration (fun out => out.Pairwise Before) List.Pairwise.nil
        (walk_pairwise c v.chunkDuration hd)).2 v frames rfl) i r r' h1 h2

theorem C2_consecutive_regions_ordered_witness :
    (0 : ℚ) < 1 / 2 ∧
    (regionsWalk defaultTunables 0 (1 / 2) [0, 9, 9, 9, 0, 9, 9, 9, 0])[0]? = some ⟨1 / 2, 2⟩ ∧
    (regionsWalk defaultTunables 0 (1 / 2) [0, 9, 9, 9, 0, 9, 9, 9, 0])[0 + 1]?
      = some ⟨5 / 2, 4⟩ ∧
    ((⟨1 / 2, 2⟩ : Region).End ≤ (⟨5 / 2, 4⟩ : Region).Start ∧
      (⟨1 / 2, 2⟩ : Region).Start < (⟨5 / 2, 4⟩ : Region).Start) :=
  ⟨by norm_num, by rw [regionsWalk_two_bursts]; rfl, by rw [regionsWalk_two_bursts]; rfl,
    (C2_consecutive_regions_ordered defaultTunables).1 0 (1 / 2) [0, 9, 9, 9, 0, 9, 9, 9, 0]
      (by norm_num) 0 ⟨1 / 2, 2⟩ ⟨5 / 2, 4⟩ (by rw [regionsWalk_two_bursts]; rfl)
      (by rw [regionsWalk_two_bursts]; rfl)⟩

/-- Exact arithmetic: silent chunks, a burst of `k ≥ 1` active chunks with
`MIN_REGION_SIZE ≤ k * d ≤ MAX_REGION_SIZE`, then silent chunks, give the single region
`{a * d, (a + k) * d}`. -/
theorem regionsWalk_single_burst (c : Tunables) (th d : ℚ) (hd : 0 < d)
    (sil₁ act sil₂ : List ℚ) (ha : 0 < sil₁.length) (hk : 0 < act.length)
    (hs : 0 < sil₂.length) (h₁ : ∀ e ∈ sil₁, e ≤ th) (h₂ : ∀ e ∈ act, th < e)
    (h₃ : ∀ e ∈ sil₂, e ≤ th) (hmin : c.MIN_REGION_SIZE ≤ (act.length : ℚ) * d)
    (hmax : (act.length : ℚ) * d ≤ c.MAX_REGION_SIZE) :
    regionsWalk c th d (sil₁ ++ act ++ sil₂)
      = [⟨(sil₁.length : ℚ) * d, ((sil₁.length : ℚ) + (act.length : ℚ)) * d⟩] := by
  obtain ⟨m, hm⟩ : ∃ m, sil₂.length = m + 1 := ⟨sil₂.length - 1, by omega⟩
  have e₁ := map_isActive_const th false sil₁ (fun e he => by simp [isActive, h₁ e he])
  have e₂ := map_isActive_const th true act (fun e he => by simp [isActive, h₂ e he])
  have e₃ := map_isActive_const th false sil₂ (fun e he => by simp [isActive, h₃ e he])
  have hne : (sil₁.length : ℚ) * d ≠ 0 :=
    mul_ne_zero (Nat.cast_ne_zero.mpr (by omega)) (ne_of_gt hd)
  unfold regionsWalk
  rw [regionsLoop_eq_foldl, List.map_append, List.map_append, e₁, e₂, e₃, hm,
    List.foldl_append, List.foldl_append, Walk.init, run_silent_closed,
    run_active_closed c d hd [] act.length hk _ (by simpa using hne) (by simpa using hmax),
    List.replicate_succ, List.foldl_cons]
  have hemit : vadStep c d
      ⟨[], 0 + (sil₁.length : ℚ) * d, 0 + (sil₁.length : ℚ) * d + (act.length : ℚ) * d⟩ false
      = ⟨[⟨(sil₁.length : ℚ) * d, ((sil₁.length : ℚ) + (act.length : ℚ)) * d⟩], 0,
          0 + (sil₁.length : ℚ) * d + (act.length : ℚ) * d + d⟩ := by
    have h0 : (0 : ℚ) + (sil₁.length : ℚ) * d ≠ 0 := by simpa using hne
    have hge : c.MIN_REGION_SIZE
        ≤ 0 + (sil₁.length : ℚ) * d + (act.length : ℚ) * d - (0 + (sil₁.length : ℚ) * d) := by
      linarith
    rcases vadStep_cases c d
      ⟨[], 0 + (sil₁.length : ℚ) * d, 0 + (sil₁.length : ℚ) * d + (act.length : ℚ) * d⟩ false
      with h | h | h | h
    · rw [h.2.2.2]
      simp only [List.nil_append, zero_add, add_mul]
    · exact absurd hge (not_le.mpr h.2.2.1)
    · exact absurd h.1 h0
    · rcases h.1 with h | h
      · simp at h
      · exact absurd h.1 h0
  rw [hemit, run_silent_closed]

/-- The 20th percentile of 8 silent and 26 loud chunks is the silent energy. -/
theorem percentile_silent8_loud26 :
    percentile (List.replicate 8 0 ++ List.replicate 26 1) (1 / 5) = 0 := by
  decide!

/-- Energy mode at 16 kHz, 8 silent chunks then 26 loud ones: the region opened at the
ninth chunk is force-closed 24 chunks later, `6.144` s after it opened. -/
theorem regionsWalk_silent8_loud26 :
    regionsWalk defaultTunables 0 (32 / 125) (List.replicate 8 0 ++ List.replicate 26 1)
      = [⟨256 / 125, 1024 / 125⟩] := by
  unfold regionsWalk
  rw [regionsLoop_eq_foldl, List.map_append, List.map_replicate, List.map_replicate]
  have hs : isActive 0 0 = false := by simp [isActive]
  have hact : isActive 0 1 = true := by simp [isActive]
  have e : (26 : Nat) = 23 + 3 := by norm_num
  rw [hs, hact, e, List.replicate_add, List.foldl_append, List.foldl_append, Walk.init,
    run_silent_closed,
    run_active_closed defaultTunables (32 / 125) (by norm_num) [] 23 (by norm_num) _
      (by norm_num) (by norm_num [defaultTunables])]
  simp [vadStep, defaultTunables, List.replicate]
  norm_num

/-- Claim C4, refuted as stated. Energy mode at 16 kHz (chunks of `4096 / 16000` s),
default tunables, 8 silent chunks (energy 0) followed by 26 loud ones (energy 1): the
threshold `percentile(energies, 0.2)` is 0, and the walk emits a region of `6.144` s,
longer than `MAX_REGION_SIZE = 6.0`. -/
theorem C4_counterexample :
    percentile (List.replicate 8 0 ++ List.replicate 26 1) (1 / 5) = 0 ∧
    ∃ r ∈ regionsWalk defaultTunables
        (percentile (List.replicate 8 0 ++ List.replicate 26 1) (1 / 5)) (32 / 125)
        (List.replicate 8 0 ++ List.replicate 26 1),
      ¬ (r.End - r.Start ≤ defaultTunables.MAX_REGION_SIZE) := by
  refine ⟨percentile_silent8_loud26, ⟨256 / 125, 1024 / 125⟩, ?_, ?_⟩
  · rw [percentile_silent8_loud26, regionsWalk_silent8_loud26]
    simp
  · norm_num [defaultTunables]

/-- Claim C4, amended. When `MIN_REGION_SIZE ≤ MAX_REGION_SIZE`, every region emitted
by `Regions` (by its region walk on every energy sequence and threshold) or by `Vad` is
closed at the first chunk at which its computed length has reached `MAX_REGION_SIZE`:
at the chunk before the one that closed it, of elapsed time `p` with `End = p + d` as
the machine computes it, the region had just been opened (`p = Start`) or its computed
length `p - Start` was below `MAX_REGION_SIZE`. This holds for every rounding `fl` of
the float64 operations; in exact arithmetic and for `0 < MAX_REGION_SIZE` it says
`End - Start < MAX_REGION_SIZE + chunkDuration`. -/
theorem C4_region_length_below_max_plus_chunk (fl : ℚ → ℚ) (c : Tunables)
    (hmm : c.MIN_REGION_SIZE ≤ c.MAX_REGION_SIZE) :
    (∀ (th d : ℚ) (es : List ℚ), ∀ r ∈ regionsWalkFl fl c th d es,
        ∃ p, r.End = fl (p + d) ∧ (p = r.Start ∨ fl (p - r.Start) < c.MAX_REGION_SIZE)) ∧
    (∀ (rms : Samples → Nat → ℚ) (pct : List ℚ → ℚ → ℚ) (v : Voice)
        (reads : List SampleRead), ∀ r ∈ RegionsFl fl c rms pct v reads,
        ∃ p, r.End = fl (p + v.chunkDuration) ∧
          (p = r.Start ∨ fl (p - r.Start) < c.MAX_REGION_SIZE)) ∧
    (∀ (v : Voice) (frames : List VadFrame), ∀ r ∈ VadFl fl c v frames,
        ∃ p, r.End = fl (p + v.chunkDuration) ∧
          (p = r.Start ∨ fl (p - r.Start) < c.MAX_REGION_SIZE)) ∧
    (0 < c.MAX_REGION_SIZE →
      (∀ (th d : ℚ) (es : List ℚ), ∀ r ∈ regionsWalkFl exact c th d es,
          r.End - r.Start < c.MAX_REGION_SIZE + d) ∧
      (∀ (v : Voice) (frames : List VadFrame), ∀ r ∈ VadFl exact c v frames,
          r.End - r.Start < c.MAX_REGION_SIZE + v.chunkDuration)) := by
  have hw : ∀ (fl : ℚ → ℚ) (th d : ℚ) (es : List ℚ), ∀ r ∈ regionsWalkFl fl c th d es,
      ∃ p, r.End = fl (p + d) ∧ (p = r.Start ∨ fl (p - r.Start) < c.MAX_REGION_SIZE) := by
    intro fl th d es
    exact (detectorsFl_of_walk fl c d
      (fun out => ∀ r ∈ out, ∃ p, r.End = fl (p + d) ∧
        (p = r.Start ∨ fl (p - r.Start) < c.MAX_REGION_SIZE))
      (by simp) (walkFl_max_length fl c d hmm)).1 th es
  have hv : ∀ (fl : ℚ → ℚ) (v : Voice) (frames : List VadFrame), ∀ r ∈ VadFl fl c v frames,
      ∃ p, r.End = fl (p + v.chunkDuration) ∧
        (p = r.Start ∨ fl (p - r.Start) < c.MAX_REGION_SIZE) := by
    intro fl v frames
    exact (detectorsFl_of_walk fl c v.chunkDuration
      (fun out => ∀ r ∈ out, ∃ p, r.End = fl (p + v.chunkDuration) ∧
        (p = r.Start ∨ fl (p - r.Start) < c.MAX_REGION_SIZE))
      (by simp) (walkFl_max_length fl c v.chunkDuration hmm)).2 v frames rfl
  have hx : ∀ (d : ℚ) (r : Region), 0 < c.MAX_REGION_SIZE →
      (∃ p, r.End = exact (p + d) ∧ (p = r.Start ∨ exact (p - r.Start) < c.MAX_REGION_SIZE)) →
      r.End - r.Start < c.MAX_REGION_SIZE + d := by
    rintro d r hmax ⟨p, hp, h | h⟩
    · simp only [exact] at hp
      rw [hp, h]
      linarith
    · simp only [exact] at hp h
      rw [hp]
      linarith
  refine ⟨hw fl, ?_, hv fl, fun hmax => ⟨?_, ?_⟩⟩
  · intro rms pct v reads r hr
    exact hw fl _ v.chunkDuration _ r hr
  · intro th d es r hr
    exact hx d r hmax (hw exact th d es r hr)
  · intro v frames r hr
    exact hx v.chunkDuration r hmax (hv exact v frames r hr)

theorem C4_region_length_below_max_plus_chunk_witness :
    defaultTunables.MIN_REGION_SIZE ≤ defaultTunables.MAX_REGION_SIZE ∧
    (⟨256 / 125, 1024 / 125⟩ : Region)
      ∈ regionsWalkFl exact defaultTunables 0 (32 / 125)
          (List.replicate 8 0 ++ List.replicate 26 1) ∧
    ∃ p, (⟨256 / 125, 1024 / 125⟩ : Region).End = exact (p + 32 / 125) ∧
      (p = (⟨256 / 125, 1024 / 125⟩ : Region).Start ∨
        exact (p - (⟨256 / 125, 1024 / 125⟩ : Region).Start)
          < defaultTunables.MAX_REGION_SIZE) :=
  ⟨by norm_num [defaultTunables],
    by rw [regionsWalkFl_exact, regionsWalk_silent8_loud26]; simp,
    (C4_region_length_below_max_plus_chunk exact defaultTunables
      (by norm_num [defaultTunables])).1 0 (32 / 125)
      (List.replicate 8 0 ++ List.replicate 26 1) ⟨256 / 125, 1024 / 125⟩
      (by rw [regionsWalkFl_exact, regionsWalk_silent8_loud26]; simp)⟩

theorem elapsedFl_succ (fl : ℚ → ℚ) (d : ℚ) (n : Nat) :
    elapsedFl fl d (n + 1) = fl (elapsedFl fl d n + d) := rfl

/-- Under rounding: silent chunks, a burst of active chunks during which the computed
length stays below `MAX_REGION_SIZE` and at whose end it has reached
`MIN_REGION_SIZE`, then silent chunks, give the single region that spans the burst. -/
theorem regionsWalkFl_single_burst (fl : ℚ → ℚ) (c : Tunables) (th d : ℚ)
    (sil₁ act sil₂ : List ℚ) (hk : 0 < act.length) (hs : 0 < sil₂.length)
    (h₁ : ∀ e ∈ sil₁, e ≤ th) (h₂ : ∀ e ∈ act, th < e) (h₃ : ∀ e ∈ sil₂, e ≤ th)
    (hne : elapsedFl fl d sil₁.length ≠ 0)
    (hmax : ∀ j, sil₁.length < j → j < sil₁.length + act.length →
      fl (elapsedFl fl d j - elapsedFl fl d sil₁.length) < c.MAX_REGION_SIZE)
    (hmin : c.MIN_REGION_SIZE
      ≤ fl (elapsedFl fl d (sil₁.length + act.length) - elapsedFl fl d sil₁.length)) :
    regionsWalkFl fl c th d (sil₁ ++ act ++ sil₂)
      = [⟨elapsedFl fl d sil₁.length, elapsedFl fl d (sil₁.length + act.length)⟩] := by
  obtain ⟨m, hm⟩ : ∃ m, sil₂.length = m + 1 := ⟨sil₂.length - 1, by omega⟩
  have e₁ := map_isActive_const th false sil₁ (fun e he => by simp [isActive, h₁ e he])
  have e₂ := map_isActive_const th true act (fun e he => by simp [isActive, h₂ e he])
  have e₃ := map_isActive_const th false sil₂ (fun e he => by simp [isActive, h₃ e he])
  have hinit : Walk.init = ⟨[], 0, elapsedFl fl d 0⟩ := rfl
  unfold regionsWalkFl
  rw [regionsLoopFl_eq_foldl, List.map_append, List.map_append, e₁, e₂, e₃, hm,
    List.foldl_append, List.foldl_append, hinit, runFl_silent_closed, Nat.zero_add,
    runFl_active_closed fl c d [] act.length sil₁.length hk hne hmax,
    List.replicate_succ, List.foldl_cons,
    (stepFl_silent_open fl c d [] _ hne (sil₁.length + act.length)).1 hmin,
    runFl_silent_closed]
  rfl

/-- With `float64` rounding and `d = float64(0.1)`: the elapsed times of the first
eight chunks. -/
theorem elapsedFl_tenth :
    float64 (1 / 10) = 3602879701896397 / 36028797018963968 ∧
    elapsedFl float64 (float64 (1 / 10)) 2 = 3602879701896397 / 18014398509481984 ∧
    elapsedFl float64 (float64 (1 / 10)) 3 = 1351079888211149 / 4503599627370496 ∧
    elapsedFl float64 (float64 (1 / 10)) 4 = 3602879701896397 / 9007199254740992 ∧
    elapsedFl float64 (float64 (1 / 10)) 5 = 1 / 2 ∧
    elapsedFl float64 (float64 (1 / 10)) 6 = 5404319552844595 / 9007199254740992 ∧
    elapsedFl float64 (float64 (1 / 10)) 7 = 3152519739159347 / 4503599627370496 := by
  have hd : float64 (1 / 10) = 3602879701896397 / 36028797018963968 := by decide!
  have h1 : elapsedFl float64 (float64 (1 / 10)) 1 = 3602879701896397 / 36028797018963968 := by
    rw [show (1 : Nat) = 0 + 1 from rfl, elapsedFl_succ, hd]
    simp only [elapsedFl]
    decide!
  have h2 : elapsedFl float64 (float64 (1 / 10)) 2 = 3602879701896397 / 18014398509481984 := by
    rw [show (2 : Nat) = 1 + 1 from rfl, elapsedFl_succ, h1, hd]
    decide!
  have h3 : elapsedFl float64 (float64 (1 / 10)) 3 = 1351079888211149 / 4503599627370496 := by
    rw [show (3 : Nat) = 2 + 1 from rfl, elapsedFl_succ, h2, hd]
    decide!
  have h4 : elapsedFl float64 (float64 (1 / 10)) 4 = 3602879701896397 / 9007199254740992 := by
    rw [show (4 : Nat) = 3 + 1 from rfl, elapsedFl_succ, h3, hd]
    decide!
  have h5 : elapsedFl float64 (float64 (1 / 10)) 5 = 1 / 2 := by
    rw [show (5 : Nat) = 4 + 1 from rfl, elapsedFl_succ, h4, hd]
    decide!
  have h6 : elapsedFl float64 (float64 (1 / 10)) 6 = 5404319552844595 / 9007199254740992 := by
    rw [show (6 : Nat) = 5 + 1 from rfl, elapsedFl_succ, h5, hd]
    decide!
  have h7 : elapsedFl float64 (float64 (1 / 10)) 7 = 3152519739159347 / 4503599627370496 := by
    rw [show (7 : Nat) = 6 + 1 from rfl, elapsedFl_succ, h6, hd]
    decide!
  exact ⟨hd, h2, h3, h4, h5, h6, h7⟩

/-- With `float64` rounding, chunks of `float64(0.1)` s (4096 samples at 40960 Hz) and
the default tunables: two silent chunks, five loud ones, one silent one. The burst
lasts `5 * d ≥ 0.5`, but the computed length at the closing chunk is
`0.7 - 0.2 = 0.49999999999999994`, so no region is emitted. -/
theorem regionsWalkFl_tenth :
    regionsWalkFl float64 defaultTunables 0 (float64 (1 / 10))
      ([0, 0] ++ [9, 9, 9, 9, 9] ++ [0]) = [] := by
  obtain ⟨hd, h2, h3, h4, h5, h6, h7⟩ := elapsedFl_tenth
  have hne : elapsedFl float64 (float64 (1 / 10)) 2 ≠ 0 := by rw [h2]; norm_num
  have hmax : ∀ i, 2 < i → i < 2 + 5 →
      float64 (elapsedFl float64 (float64 (1 / 10)) i - elapsedFl float64 (float64 (1 / 10)) 2)
        < defaultTunables.MAX_REGION_SIZE := by
    intro i hi hi'
    have hcases : i = 3 ∨ i = 4 ∨ i = 5 ∨ i = 6 := by omega
    rcases hcases with rfl | rfl | rfl | rfl
    · rw [h3, h2]; decide!
    · rw [h4, h2]; decide!
    · rw [h5, h2]; decide!
    · rw [h6, h2]; decide!
  have hmin : float64
      (elapsedFl float64 (float64 (1 / 10)) (2 + 5) - elapsedFl float64 (float64 (1 / 10)) 2)
        < defaultTunables.MIN_REGION_SIZE := by
    rw [show (2 + 5 : Nat) = 7 from rfl, h7, h2]
    decide!
  have hinit : Walk.init = ⟨[], 0, elapsedFl float64 (float64 (1 / 10)) 0⟩ := rfl
  have hacts : (([0, 0] ++ [9, 9, 9, 9, 9] ++ [0] : List ℚ)).map (isActive 0)
      = List.replicate 2 false ++ List.replicate 5 true ++ [false] := by
    simp [isActive, List.replicate]
  unfold regionsWalkFl
  rw [regionsLoopFl_eq_foldl, hacts, List.foldl_append, List.foldl_append, hinit,
    runFl_silent_closed, Nat.zero_add,
    runFl_active_closed float64 defaultTunables _ [] 5 2 (by norm_num) hne hmax,
    List.foldl_cons, (stepFl_silent_open float64 defaultTunables _ [] _ hne (2 + 5)).2 hmin]
  rfl

/-- Claim C5, refuted as stated, on the float64 walk with the threshold
`percentile(energies, 0.2)` the code computes (0 in both cases). (a) With
`MIN_REGION_SIZE = 0`, one silent chunk, no active chunk and one silent chunk meet the
hypotheses (`0 ≤ 0 * d ≤ 6`) and no region is emitted, where the claim has
`{a * d, a * d}`. (b) With the default tunables and chunks of `d = float64(0.1)` s (4096
samples at 40960 Hz), two silent chunks, five loud ones and a silent one meet the
hypotheses (`0.5 ≤ 5 * d ≤ 6`), and no region is emitted: the rounded sums give
`0.7 - 0.2 = 0.49999999999999994 < MIN_REGION_SIZE` at the closing chunk. -/
theorem C5_counterexample :
    (percentile ([0] ++ [] ++ [0]) (1 / 5) = 0 ∧
      regionsWalkFl float64 ⟨6, 0⟩ (percentile ([0] ++ [] ++ [0]) (1 / 5)) (1 / 2)
        ([0] ++ [] ++ [0]) = []) ∧
    (0 < float64 (1 / 10) ∧ defaultTunables.MIN_REGION_SIZE ≤ 5 * float64 (1 / 10) ∧
      5 * float64 (1 / 10) ≤ defaultTunables.MAX_REGION_SIZE) ∧
    (percentile ([0, 0] ++ [9, 9, 9, 9, 9] ++ [0]) (1 / 5) = 0 ∧
      regionsWalkFl float64 defaultTunables
        (percentile ([0, 0] ++ [9, 9, 9, 9, 9] ++ [0]) (1 / 5)) (float64 (1 / 10))
        ([0, 0] ++ [9, 9, 9, 9, 9] ++ [0]) = []) := by
  have hp₁ : percentile ([0] ++ [] ++ [0]) (1 / 5) = 0 := by decide!
  have hp₂ : percentile ([0, 0] ++ [9, 9, 9, 9, 9] ++ [0]) (1 / 5) = 0 := by decide!
  refine ⟨⟨hp₁, ?_⟩, ?_, hp₂, ?_⟩
  · rw [hp₁]
    simp [regionsWalkFl, regionsLoopFl, regionsStepFl, Walk.init]
  · rw [elapsedFl_tenth.1]
    norm_num [defaultTunables]
  · rw [hp₂]
    exact regionsWalkFl_tenth

theorem elapsedFl_half (fl : ℚ → ℚ) (hfl : ∀ n : Nat, n ≤ 12 → fl ((n : ℚ) / 2) = (n : ℚ) / 2)
    (j : Nat) (hj : j ≤ 12) : elapsedFl fl (1 / 2) j = (j : ℚ) / 2 := by
  induction j with
  | zero => simp [elapsedFl]
  | succ j ih =>
    rw [elapsedFl_succ, ih (by omega)]
    have : (j : ℚ) / 2 + 1 / 2 = ((j + 1 : Nat) : ℚ) / 2 := by push_cast; ring
    rw [this]
    exact hfl (j + 1) hj

/-- Claim C5, amended. For every rounding `fl` of the float64 operations, with `e i`
the elapsed time the walk has computed after `i` chunks: an energy sequence made of
`a ≥ 1` silent chunks (`energy ≤ threshold`), then `k ≥ 1` active chunks
(`energy > threshold`), then at least one silent chunk and only silent chunks, with
`e a ≠ 0`, the computed length `e j - e a` below `MAX_REGION_SIZE` at every chunk `j`
of the burst after its first, and the computed length `e (a + k) - e a` at least
`MIN_REGION_SIZE`, makes the region walk of `Regions` emit exactly the region
`{e a, e (a + k)}`. In exact arithmetic these conditions are `d > 0` and
`MIN_REGION_SIZE ≤ k * d ≤ MAX_REGION_SIZE`, and the region is `{a * d, (a + k) * d}`.
In particular `[0,0,0,9,9,9,9,9,9,0,0,0]` with `d = 0.5` (whose multiples are computed
without rounding), the default tunables and a threshold in `[0, 9)` gives exactly
`[{1.5, 4.5}]`. -/
theorem C5_single_burst (fl : ℚ → ℚ) (c : Tunables) :
    (∀ (th d : ℚ) (sil₁ act sil₂ : List ℚ),
        0 < sil₁.length → 0 < act.length → 0 < sil₂.length →
        (∀ e ∈ sil₁, e ≤ th) → (∀ e ∈ act, th < e) → (∀ e ∈ sil₂, e ≤ th) →
        elapsedFl fl d sil₁.length ≠ 0 →
        (∀ j, sil₁.length < j → j < sil₁.length + act.length →
          fl (elapsedFl fl d j - elapsedFl fl d sil₁.length) < c.MAX_REGION_SIZE) →
        c.MIN_REGION_SIZE
          ≤ fl (elapsedFl fl d (sil₁.length + act.length) - elapsedFl fl d sil₁.length) →
        regionsWalkFl fl c th d (sil₁ ++ act ++ sil₂)
          = [⟨elapsedFl fl d sil₁.length, elapsedFl fl d (sil₁.length + act.length)⟩]) ∧
    (∀ (th d : ℚ) (sil₁ act sil₂ : List ℚ), 0 < d →
        0 < sil₁.length → 0 < act.length → 0 < sil₂.length →
        (∀ e ∈ sil₁, e ≤ th) → (∀ e ∈ act, th < e) → (∀ e ∈ sil₂, e ≤ th) →
        c.MIN_REGION_SIZE ≤ (act.length : ℚ) * d → (act.length : ℚ) * d ≤ c.MAX_REGION_SIZE →
        regionsWalkFl exact c th d (sil₁ ++ act ++ sil₂)
          = [⟨(sil₁.length : ℚ) * d, ((sil₁.length : ℚ) + (act.length : ℚ)) * d⟩]) ∧
    ((∀ n : Nat, n ≤ 12 → fl ((n : ℚ) / 2) = (n : ℚ) / 2) → ∀ t : ℚ, 0 ≤ t → t < 9 →
        regionsWalkFl fl defaultTunables t (1 / 2) [0, 0, 0, 9, 9, 9, 9, 9, 9, 0, 0, 0]
          = [⟨3 / 2, 9 / 2⟩]) := by
  refine ⟨?_, ?_, ?_⟩
  · intro th d sil₁ act sil₂ _ hk hs h₁ h₂ h₃ hne hmax hmin
    exact regionsWalkFl_single_burst fl c th d sil₁ act sil₂ hk hs h₁ h₂ h₃ hne hmax hmin
  · intro th d sil₁ act sil₂ hd ha hk hs h₁ h₂ h₃ hmin hmax
    rw [regionsWalkFl_exact]
    exact regionsWalk_single_burst c th d hd sil₁ act sil₂ ha hk hs h₁ h₂ h₃ hmin hmax
  · intro hfl t ht0 ht9
    have he := elapsedFl_half fl hfl
    have hsub : ∀ j : Nat, 3 ≤ j → j ≤ 12 →
        fl (elapsedFl fl (1 / 2) j - elapsedFl fl (1 / 2) 3) = ((j - 3 : Nat) : ℚ) / 2 := by
      intro j hj hj'
      rw [he j hj', he 3 (by norm_num)]
      have : (j : ℚ) / 2 - ((3 : Nat) : ℚ) / 2 = ((j - 3 : Nat) : ℚ) / 2 := by
        rw [Nat.cast_sub hj]
        ring
      rw [this]
      exact hfl (j - 3) (by omega)
    have h := regionsWalkFl_single_burst fl defaultTunables t (1 / 2) [0, 0, 0]
      [9, 9, 9, 9, 9, 9] [0, 0, 0] (by simp) (by simp) (by simpa using ht0)
      (by simpa using ht9) (by simpa using ht0)
      (by rw [show ([0, 0, 0] : List ℚ).length = 3 from rfl, he 3 (by norm_num)]; norm_num)
      (by
        intro j hj hj'
        simp only [List.length_cons, List.length_nil] at hj hj'
        rw [show ([0, 0, 0] : List ℚ).length = 3 from rfl, hsub j (by omega) (by omega)]
        have : (((j - 3 : Nat) : ℚ)) ≤ 5 := by exact_mod_cast (by omega : j - 3 ≤ 5)
        norm_num [defaultTunables]
        linarith)
      (by
        rw [show ([0, 0, 0] : List ℚ).length + ([9, 9, 9, 9, 9, 9] : List ℚ).length = 9 from rfl,
          show ([0, 0, 0] : List ℚ).length = 3 from rfl, hsub 9 (by norm_num) (by norm_num)]
        norm_num [defaultTunables])
    rw [show ([0, 0, 0, 9, 9, 9, 9, 9, 9, 0, 0, 0] : List ℚ)
      = [0, 0, 0] ++ [9, 9, 9, 9, 9, 9] ++ [0, 0, 0] from rfl, h,
      show ([0, 0, 0] : List ℚ).length + ([9, 9, 9, 9, 9, 9] : List ℚ).length = 9 from rfl,
      show ([0, 0, 0] : List ℚ).length = 3 from rfl, he 3 (by norm_num), he 9 (by norm_num)]
    norm_num

theorem C5_single_burst_witness :
    (∀ n : Nat, n ≤ 12 → exact ((n : ℚ) / 2) = (n : ℚ) / 2) ∧ (0 : ℚ) ≤ 0 ∧ (0 : ℚ) < 9 ∧
    regionsWalkFl exact defaultTunables 0 (1 / 2) [0, 0, 0, 9, 9, 9, 9, 9, 9, 0, 0, 0]
      = [⟨3 / 2, 9 / 2⟩] :=
  ⟨fun _ _ => rfl, le_rfl, by norm_num,
    (C5_single_burst exact defaultTunables).2.2 (fun _ _ => rfl) 0 le_rfl (by norm_num)⟩

theorem readEnergies_ignoreOther (rms : Samples → Nat → ℚ) (ch n : Nat)
    (reads : List SampleRead) (acc : List ℚ) :
    readEnergies rms ch n (reads.map SampleRead.ignoreOther) acc
      = readEnergies rms ch n reads acc := by
  induction reads generalizing n acc with
  | nil => cases n <;> rfl
  | cons rd rest ih =>
    cases n with
    | zero => rfl
    | succ n =>
      cases herr : rd.err <;>
        simp [readEnergies, SampleRead.ignoreOther, herr, ih]

theorem vadLoop_clearProcessErr (c : Tunables) (d : ℚ) (s : Walk) (frames : List VadFrame) :
    vadLoop c d s (frames.map VadFrame.clearProcessErr) = vadLoop c d s frames := by
  induction frames generalizing s with
  | nil => rfl
  | cons f rest ih =>
    cases herr : f.readErr <;>
      simp [vadLoop, VadFrame.clearProcessErr, herr, ih]

/-- Claim C6, evaluated on the code. `Vad` never reads the `err` that
`webrtcvad.Process` returns: its result is the same whether or not the classifier
reported errors, and on the stream "one silent frame, 25 active frames, one frame
classified inactive together with an error" it does not abort but closes and returns
the region `{0.02, 0.52}` using the value returned alongside the error. -/
theorem C6_vad_ignores_classifier_error :
    (∀ (c : Tunables) (v : Voice) (frames : List VadFrame),
        Vad c v frames = Vad c v (frames.map VadFrame.clearProcessErr)) ∧
    Vad defaultTunables vadVoice
        (silentFrame :: (List.replicate 25 activeFrame ++ [erringFrame]))
      = [⟨1 / 50, 13 / 25⟩] := by
  constructor
  · intro c v frames
    unfold Vad
    rw [vadLoop_clearProcessErr]
  · exact Vad_of_vadLoop _ _ _ _ (walk_burst_25 vadVoice.chunkDuration rfl erringFrame rfl rfl)

/-- Claim C7, refuted as stated. In VAD mode at 16 kHz, on "one silent frame, 25 active
frames, one silent frame, then a read that fails", `Vad` returns no region, while on the
stream made of the first 27 frames it returns the region `{0.02, 0.52}`. -/
theorem C7_counterexample :
    Vad defaultTunables vadVoice
        (silentFrame :: (List.replicate 25 activeFrame ++ [silentFrame])
          ++ [failedFrame]) = [] ∧
    Vad defaultTunables vadVoice
        ((silentFrame :: (List.replicate 25 activeFrame ++ [silentFrame])
          ++ [failedFrame]).take 27) = [⟨1 / 50, 13 / 25⟩] := by
  constructor
  · refine Vad_of_vadLoop_none _ _ _ (vadLoop_read_failure defaultTunables _ Walk.init
      (silentFrame :: (List.replicate 25 activeFrame ++ [silentFrame]))
      failedFrame [] ?_ rfl)
    intro g hg
    simp only [List.mem_cons, List.mem_append, List.not_mem_nil, or_false] at hg
    rcases hg with rfl | hg | rfl
    · rfl
    · rw [List.eq_of_mem_replicate hg]; rfl
    · rfl
  · have htake : (silentFrame :: (List.replicate 25 activeFrame ++ [silentFrame])
        ++ [failedFrame]).take 27
        = silentFrame :: (List.replicate 25 activeFrame ++ [silentFrame]) := by
      rw [List.take_append_of_le_length (by simp)]
      exact List.take_of_length_le (by simp)
    rw [htake]
    exact Vad_of_vadLoop _ _ _ _ (walk_burst_25 vadVoice.chunkDuration rfl silentFrame rfl rfl)

/-- `Regions` does not look at a read error other than `io.EOF`: the read counts as a
successful one. -/
theorem Regions_ignoreOther (c : Tunables) (rms : Samples → Nat → ℚ)
    (percentile : List ℚ → ℚ → ℚ) (v : Voice) (reads : List SampleRead) :
    Regions c rms percentile v (reads.map SampleRead.ignoreOther)
      = Regions c rms percentile v reads := by
  unfold Regions
  rw [readEnergies_ignoreOther]

theorem readEnergies_eof (rms : Samples → Nat → ℚ) (ch n : Nat) (pre : List SampleRead)
    (rd : SampleRead) (post : List SampleRead) (acc : List ℚ) (h : rd.err = ReadErr.EOF) :
    readEnergies rms ch n (pre ++ rd :: post) acc = readEnergies rms ch n pre acc := by
  induction pre generalizing n acc with
  | nil => cases n <;> simp [readEnergies, h]
  | cons x rest ih =>
    cases n with
    | zero => rfl
    | succ n =>
      by_cases hx : x.err = ReadErr.EOF
      · simp [readEnergies, hx]
      · simp [readEnergies, hx, ih]

theorem vadLoop_eof (c : Tunables) (d : ℚ) (s : Walk) (pre : List VadFrame) (f : VadFrame)
    (post : List VadFrame) (h : f.readErr = ReadErr.EOF) :
    vadLoop c d s (pre ++ f :: post) = vadLoop c d s pre := by
  induction pre generalizing s with
  | nil => simp [vadLoop, h]
  | cons g rest ih =>
    cases hg : g.readErr <;> simp [vadLoop, hg, ih]

/-- Claim C7, amended. Only `io.EOF` truncates the scan: when the read at step `k`
returns `io.EOF`, `Regions` and `Vad` return what they return for the stream made of
the first `k` chunks or frames. In `Vad` a read that fails at step `k` with any other
error (after successful reads) is not treated as end-of-stream: the detector returns
`nil`, so no region is returned, not even those already closed. -/
theorem C7_read_error_behaviour (c : Tunables) :
    (∀ (v : Voice) (pre : List VadFrame) (f : VadFrame) (post : List VadFrame),
        (∀ g ∈ pre, g.readErr = ReadErr.none) → f.readErr = ReadErr.other →
        Vad c v (pre ++ f :: post) = []) ∧
    (∀ (v : Voice) (pre : List VadFrame) (f : VadFrame) (post : List VadFrame),
        f.readErr = ReadErr.EOF → Vad c v (pre ++ f :: post) = Vad c v pre) ∧
    (∀ (rms : Samples → Nat → ℚ) (percentile : List ℚ → ℚ → ℚ) (v : Voice)
        (pre : List SampleRead) (rd : SampleRead) (post : List SampleRead),
        rd.err = ReadErr.EOF →
        Regions c rms percentile v (pre ++ rd :: post) = Regions c rms percentile v pre) := by
  refine ⟨?_, ?_, ?_⟩
  · intro v pre f post hpre hf
    exact Vad_of_vadLoop_none _ _ _
      (vadLoop_read_failure c v.chunkDuration Walk.init pre f post hpre hf)
  · intro v pre f post hf
    unfold Vad
    rw [vadLoop_eof c v.chunkDuration Walk.init pre f post hf]
  · intro rms percentile v pre rd post hrd
    unfold Regions
    rw [readEnergies_eof rms v.nChannels v.nChunks pre rd post [] hrd]

theorem C7_read_error_behaviour_witness :
    (∀ g ∈ [silentFrame, activeFrame], g.readErr = ReadErr.none) ∧
    failedFrame.readErr = ReadErr.other ∧
    Vad defaultTunables vadVoice
      ([silentFrame, activeFrame] ++ failedFrame :: [activeFrame]) = [] :=
  ⟨by simp [silentFrame, activeFrame], rfl,
    (C7_read_error_behaviour defaultTunables).1 vadVoice [silentFrame, activeFrame]
      failedFrame [activeFrame] (by simp [silentFrame, activeFrame]) rfl⟩

/-- A loud chunk met by an open region closes it when its computed length has
reached `MAX_REGION_SIZE` (and `MIN_REGION_SIZE`), and leaves it open while the
computed length is below `MAX_REGION_SIZE`. -/
theorem stepFl_active_open (fl : ℚ → ℚ) (c : Tunables) (d : ℚ) (regs : List Region) (rs : ℚ)
    (hrs : rs ≠ 0) (j : Nat) :
    (c.MAX_REGION_SIZE ≤ fl (elapsedFl fl d j - rs) →
      c.MIN_REGION_SIZE ≤ fl (elapsedFl fl d j - rs) →
      vadStepFl fl c d ⟨regs, rs, elapsedFl fl d j⟩ true
        = ⟨regs ++ [⟨rs, elapsedFl fl d j⟩], 0, elapsedFl fl d (j + 1)⟩) ∧
    (fl (elapsedFl fl d j - rs) < c.MAX_REGION_SIZE →
      vadStepFl fl c d ⟨regs, rs, elapsedFl fl d j⟩ true
        = ⟨regs, rs, elapsedFl fl d (j + 1)⟩) := by
  constructor
  · intro h h'
    simp [vadStepFl, hrs, h, h', elapsedFl]
  · intro h
    simp [vadStepFl, hrs, not_le.mpr h, elapsedFl]

/-- Accumulated rounding error of `elapsed_time` over 500 frames of 20 ms, for a
rounding that is within `1e-9` on `[-11, 11]`. -/
theorem elapsedFl_close (fl : ℚ → ℚ) (d : ℚ)
    (hfl : ∀ x : ℚ, |x| ≤ 11 → |fl x - x| ≤ 1 / 1000000000)
    (hd : |d - 1 / 50| ≤ 1 / 1000000000) (k : Nat) (hk : k ≤ 500) :
    |elapsedFl fl d k - (k : ℚ) / 50| ≤ 2 * (k : ℚ) / 1000000000 := by
  induction k with
  | zero => simp [elapsedFl]
  | succ k ih =>
    have ih' := abs_le.mp (ih (by omega))
    have hd' := abs_le.mp hd
    have hk' : (k : ℚ) ≤ 499 := by exact_mod_cast (by omega : k ≤ 499)
    have hk0 : (0 : ℚ) ≤ k := Nat.cast_nonneg k
    have hx : |elapsedFl fl d k + d| ≤ 11 := by
      rw [abs_le]
      constructor <;> linarith
    have hr := abs_le.mp (hfl _ hx)
    rw [elapsedFl_succ, abs_le]
    push_cast
    constructor <;> linarith

/-- The computed length between two chunks of the 500-frame stream is within `3e-6`
of the exact one. -/
theorem lengthFl_close (fl : ℚ → ℚ) (d : ℚ)
    (hfl : ∀ x : ℚ, |x| ≤ 11 → |fl x - x| ≤ 1 / 1000000000)
    (hd : |d - 1 / 50| ≤ 1 / 1000000000) (i j : Nat) (hi : i ≤ 500) (hj : j ≤ 500) :
    |fl (elapsedFl fl d j - elapsedFl fl d i) - ((j : ℚ) - (i : ℚ)) / 50| ≤ 3 / 1000000 := by
  have hi' := abs_le.mp (elapsedFl_close fl d hfl hd i hi)
  have hj' := abs_le.mp (elapsedFl_close fl d hfl hd j hj)
  have hi500 : (i : ℚ) ≤ 500 := by exact_mod_cast hi
  have hj500 : (j : ℚ) ≤ 500 := by exact_mod_cast hj
  have hi0 : (0 : ℚ) ≤ i := Nat.cast_nonneg i
  have hj0 : (0 : ℚ) ≤ j := Nat.cast_nonneg j
  have hx : |elapsedFl fl d j - elapsedFl fl d i| ≤ 11 := by
    rw [abs_le]
    constructor <;> linarith
  have hr := abs_le.mp (hfl _ hx)
  rw [abs_le]
  constructor <;> linarith

/-- The all-active 10 s VAD stream (500 frames of 20 ms, default tunables) under any
rounding within `1e-9` on `[-11, 11]`: the region opened at the second frame is
force-closed at frame 301 or 302, and the region opened right after it is still open
when the stream ends. -/
theorem vadLoopFl_all_active_10s (fl : ℚ → ℚ) (d : ℚ)
    (hfl : ∀ x : ℚ, |x| ≤ 11 → |fl x - x| ≤ 1 / 1000000000)
    (hd : |d - 1 / 50| ≤ 1 / 1000000000) :
    ∃ k, (k = 301 ∨ k = 302) ∧
      vadLoopFl fl defaultTunables d Walk.init (List.replicate 500 activeFrame)
        = some ⟨[⟨elapsedFl fl d 1, elapsedFl fl d k⟩], elapsedFl fl d (k + 1),
            elapsedFl fl d 500⟩ ∧
      defaultTunables.MAX_REGION_SIZE ≤ fl (elapsedFl fl d k - elapsedFl fl d 1) ∧
      elapsedFl fl d (k + 1) ≠ 0 := by
  have hlen := lengthFl_close fl d hfl hd
  have hclose := elapsedFl_close fl d hfl hd
  have hne : ∀ k : Nat, 1 ≤ k → k ≤ 500 → elapsedFl fl d k ≠ 0 := by
    intro k hk1 hk
    have h := abs_le.mp (hclose k hk)
    have hk1' : (1 : ℚ) ≤ k := by exact_mod_cast hk1
    have hk' : (k : ℚ) ≤ 500 := by exact_mod_cast hk
    intro h0
    rw [h0] at h
    linarith
  have hbelow : ∀ i j : Nat, i ≤ j → j ≤ 500 → j ≤ i + 299 →
      fl (elapsedFl fl d j - elapsedFl fl d i) < defaultTunables.MAX_REGION_SIZE := by
    intro i j hij hj hji
    have h := abs_le.mp (hlen i j (by omega) hj)
    have hc : (j : ℚ) ≤ (i : ℚ) + 299 := by exact_mod_cast hji
    simp only [defaultTunables]
    linarith
  have habove : ∀ i j : Nat, j ≤ 500 → i + 300 ≤ j →
      (1 : ℚ) / 2 ≤ fl (elapsedFl fl d j - elapsedFl fl d i) := by
    intro i j hj hij
    have h := abs_le.mp (hlen i j (by omega) hj)
    have hc : (i : ℚ) + 300 ≤ (j : ℚ) := by exact_mod_cast hij
    linarith
  have h302 : defaultTunables.MAX_REGION_SIZE
      ≤ fl (elapsedFl fl d 302 - elapsedFl fl d 1) := by
    have h := abs_le.mp (hlen 1 302 (by norm_num) (by norm_num))
    simp only [defaultTunables]
    push_cast at h
    linarith
  have hok : ∀ f ∈ List.replicate 500 activeFrame, f.readErr = ReadErr.none := by
    intro f hf
    rw [List.eq_of_mem_replicate hf]
    rfl
  have hmap : (List.replicate 500 activeFrame).map VadFrame.frameActive
      = List.replicate 500 true := by
    rw [List.map_replicate]
    rfl
  have hinit : Walk.init = ⟨[], 0, elapsedFl fl d 0⟩ := rfl
  have hfirst : vadStepFl fl defaultTunables d ⟨[], 0, elapsedFl fl d 0⟩ true
      = ⟨[], 0, elapsedFl fl d 1⟩ := by
    simp [vadStepFl, elapsedFl]
  have hrun1 := runFl_active_closed fl defaultTunables d [] 300 1 (by norm_num)
    (hne 1 le_rfl (by norm_num)) (fun i hi hi' => hbelow 1 i (by omega) (by omega) (by omega))
  rw [vadLoopFl_all_ok fl defaultTunables d Walk.init _ hok, hmap]
  by_cases hc : defaultTunables.MAX_REGION_SIZE ≤ fl (elapsedFl fl d 301 - elapsedFl fl d 1)
  · refine ⟨301, Or.inl rfl, ?_, hc, hne 302 (by norm_num) (by norm_num)⟩
    have hrun2 := runFl_active_closed fl defaultTunables d
      [⟨elapsedFl fl d 1, elapsedFl fl d 301⟩] 198 302 (by norm_num)
      (hne 302 (by norm_num) (by norm_num))
      (fun i hi hi' => hbelow 302 i (by omega) (by omega) (by omega))
    have hstep := (stepFl_active_open fl defaultTunables d [] (elapsedFl fl d 1)
      (hne 1 le_rfl (by norm_num)) 301).1 hc (habove 1 301 (by norm_num) (by norm_num))
    rw [show (500 : Nat) = 1 + (300 + (1 + 198)) from rfl, List.replicate_add,
      List.replicate_add, List.replicate_add, List.foldl_append, List.foldl_append,
      List.foldl_append, hinit]
    simp only [List.replicate_one, List.foldl_cons, List.foldl_nil]
    rw [hfirst, hrun1, hstep]
    simp only [List.nil_append]
    rw [hrun2]
  · have hlt := not_le.mp hc
    refine ⟨302, Or.inr rfl, ?_, h302, hne 303 (by norm_num) (by norm_num)⟩
    have hrun2 := runFl_active_closed fl defaultTunables d
      [⟨elapsedFl fl d 1, elapsedFl fl d 302⟩] 197 303 (by norm_num)
      (hne 303 (by norm_num) (by norm_num))
      (fun i hi hi' => hbelow 303 i (by omega) (by omega) (by omega))
    have hstep1 := (stepFl_active_open fl defaultTunables d [] (elapsedFl fl d 1)
      (hne 1 le_rfl (by norm_num)) 301).2 hlt
    have hstep2 := (stepFl_active_open fl defaultTunables d [] (elapsedFl fl d 1)
      (hne 1 le_rfl (by norm_num)) 302).1 h302 (habove 1 302 (by norm_num) (by norm_num))
    rw [show (500 : Nat) = 1 + (300 + (1 + (1 + 197))) from rfl, List.replicate_add,
      List.replicate_add, List.replicate_add, List.replicate_add, List.foldl_append,
      List.foldl_append, List.foldl_append, List.foldl_append, hinit]
    simp only [List.replicate_one, List.foldl_cons, List.foldl_nil]
    rw [hfirst, hrun1, hstep1, hstep2]
    simp only [List.nil_append]
    rw [hrun2]

/-- Claim C9. A region still open when the stream ends is not emitted: for every
rounding `fl` of the float64 operations, every region emitted by `Regions` (by its
region walk on every energy sequence) or by `Vad` ends at the elapsed time of a chunk
`i` inside the stream at which the chunk was inactive or the computed length of the
region had reached `MAX_REGION_SIZE`, never at end-of-stream. In particular the
all-active VAD stream of 10 s (500 frames of 20 ms) with the default tunables yields
exactly one region, the force-closed one (closed at frame 301 in exact arithmetic, at
frame 301 or 302 under any rounding within `1e-9`, `float64` among them), and the
region opened after it, still open at end-of-stream, is dropped. -/
theorem C9_open_region_dropped_at_eof (fl : ℚ → ℚ) (c : Tunables) :
    (∀ (th d : ℚ) (es : List ℚ), ∀ r ∈ regionsWalkFl fl c th d es,
        ∃ (i : Nat) (e : ℚ), es[i]? = some e ∧ r.End = elapsedFl fl d i ∧
          (e ≤ th ∨ c.MAX_REGION_SIZE ≤ fl (r.End - r.Start))) ∧
    (∀ (rms : Samples → Nat → ℚ) (pct : List ℚ → ℚ → ℚ) (v : Voice)
        (reads : List SampleRead), ∀ r ∈ RegionsFl fl c rms pct v reads,
        ∃ (i : Nat) (e : ℚ), (readEnergies rms v.nChannels v.nChunks reads [])[i]? = some e ∧
          r.End = elapsedFl fl v.chunkDuration i ∧
          (e ≤ pct (readEnergies rms v.nChannels v.nChunks reads []) (1 / 5) ∨
            c.MAX_REGION_SIZE ≤ fl (r.End - r.Start))) ∧
    (∀ (v : Voice) (frames : List VadFrame), ∀ r ∈ VadFl fl c v frames,
        ∃ (i : Nat) (f : VadFrame), frames[i]? = some f ∧ f.readErr = ReadErr.none ∧
          r.End = elapsedFl fl v.chunkDuration i ∧
          (f.frameActive = false ∨ c.MAX_REGION_SIZE ≤ fl (r.End - r.Start))) ∧
    (∀ (v : Voice), (∀ x : ℚ, |x| ≤ 11 → |fl x - x| ≤ 1 / 1000000000) →
        |v.chunkDuration - 1 / 50| ≤ 1 / 1000000000 →
        ∃ k, (k = 301 ∨ k = 302) ∧
          VadFl fl defaultTunables v (List.replicate 500 activeFrame)
            = [⟨elapsedFl fl v.chunkDuration 1, elapsedFl fl v.chunkDuration k⟩] ∧
          defaultTunables.MAX_REGION_SIZE
            ≤ fl (elapsedFl fl v.chunkDuration k - elapsedFl fl v.chunkDuration 1) ∧
          vadLoopFl fl defaultTunables v.chunkDuration Walk.init
              (List.replicate 500 activeFrame)
            = some ⟨[⟨elapsedFl fl v.chunkDuration 1, elapsedFl fl v.chunkDuration k⟩],
                elapsedFl fl v.chunkDuration (k + 1), elapsedFl fl v.chunkDuration 500⟩ ∧
          elapsedFl fl v.chunkDuration (k + 1) ≠ 0) ∧
    (∃ k, (k = 301 ∨ k = 302) ∧
      VadFl float64 defaultTunables vadVoice64 (List.replicate 500 activeFrame)
        = [⟨elapsedFl float64 vadVoice64.chunkDuration 1,
            elapsedFl float64 vadVoice64.chunkDuration k⟩] ∧
      defaultTunables.MAX_REGION_SIZE
        ≤ float64 (elapsedFl float64 vadVoice64.chunkDuration k
          - elapsedFl float64 vadVoice64.chunkDuration 1) ∧
      vadLoopFl float64 defaultTunables vadVoice64.chunkDuration Walk.init
          (List.replicate 500 activeFrame)
        = some ⟨[⟨elapsedFl float64 vadVoice64.chunkDuration 1,
              elapsedFl float64 vadVoice64.chunkDuration k⟩],
            elapsedFl float64 vadVoice64.chunkDuration (k + 1),
            elapsedFl float64 vadVoice64.chunkDuration 500⟩ ∧
      elapsedFl float64 vadVoice64.chunkDuration (k + 1) ≠ 0) := by
  have hw : ∀ (th d : ℚ) (es : List ℚ), ∀ r ∈ regionsWalkFl fl c th d es,
      ∃ (i : Nat) (e : ℚ), es[i]? = some e ∧ r.End = elapsedFl fl d i ∧
        (e ≤ th ∨ c.MAX_REGION_SIZE ≤ fl (r.End - r.Start)) := by
    intro th d es r hr
    unfold regionsWalkFl at hr
    rw [regionsLoopFl_eq_foldl] at hr
    obtain ⟨i, hi, hend, hc⟩ := walkFl_end_inside fl c d _ r hr
    rw [List.length_map] at hi
    refine ⟨i, es[i], List.getElem?_eq_getElem hi, hend, ?_⟩
    rcases hc with hc | hc
    · left
      rw [List.getElem?_map, List.getElem?_eq_getElem hi] at hc
      simpa [isActive] using hc
    · right; exact hc
  refine ⟨hw, ?_, ?_, ?_, ?_⟩
  · intro rms pct v reads r hr
    exact hw _ v.chunkDuration _ r hr
  · intro v frames r hr
    rcases VadFl_eq fl c v frames with h | h
    · rw [h] at hr; simp at hr
    · rw [h] at hr
      obtain ⟨i, hi, hend, hc⟩ := walkFl_end_inside fl c v.chunkDuration _ r hr
      rw [List.length_map] at hi
      obtain ⟨rest, hrest⟩ := okFrames_append frames
      have hget : frames[i]? = some (okFrames frames)[i] := by
        conv_lhs => rw [hrest]
        rw [List.getElem?_append_left hi, List.getElem?_eq_getElem hi]
      refine ⟨i, (okFrames frames)[i], hget,
        okFrames_ok frames _ (List.getElem_mem _), hend, ?_⟩
      rcases hc with hc | hc
      · left
        rw [List.getElem?_map, List.getElem?_eq_getElem hi] at hc
        simpa using hc
      · right; exact hc
  · intro v hfl hd
    obtain ⟨k, hk, hloop, hmax, hne⟩ := vadLoopFl_all_active_10s fl v.chunkDuration hfl hd
    exact ⟨k, hk, VadFl_of_vadLoopFl fl defaultTunables v _ _ hloop, hmax, hloop, hne⟩
  · obtain ⟨k, hk, hloop, hmax, hne⟩ := vadLoopFl_all_active_10s float64
      vadVoice64.chunkDuration float64_close
      (float64_close (1 / 50) (by rw [abs_of_pos (by norm_num)]; norm_num))
    exact ⟨k, hk, VadFl_of_vadLoopFl float64 defaultTunables vadVoice64 _ _ hloop, hmax,
      hloop, hne⟩

theorem C9_open_region_dropped_at_eof_witness :
    (∀ x : ℚ, |x| ≤ 11 → |exact x - x| ≤ 1 / 1000000000) ∧
    |vadVoice.chunkDuration - 1 / 50| ≤ 1 / 1000000000 ∧
    ∃ k, (k = 301 ∨ k = 302) ∧
      VadFl exact defaultTunables vadVoice (List.replicate 500 activeFrame)
        = [⟨elapsedFl exact vadVoice.chunkDuration 1, elapsedFl exact vadVoice.chunkDuration k⟩] ∧
      defaultTunables.MAX_REGION_SIZE
        ≤ exact (elapsedFl exact vadVoice.chunkDuration k
          - elapsedFl exact vadVoice.chunkDuration 1) ∧
      vadLoopFl exact defaultTunables vadVoice.chunkDuration Walk.init
          (List.replicate 500 activeFrame)
        = some ⟨[⟨elapsedFl exact vadVoice.chunkDuration 1,
              elapsedFl exact vadVoice.chunkDuration k⟩],
            elapsedFl exact vadVoice.chunkDuration (k + 1),
            elapsedFl exact vadVoice.chunkDuration 500⟩ ∧
      elapsedFl exact vadVoice.chunkDuration (k + 1) ≠ 0 :=
  ⟨fun x _ => by simp [exact], by norm_num [vadVoice],
    (C9_open_region_dropped_at_eof exact defaultTunables).2.2.2.1 vadVoice
      (fun x _ => by simp [exact]) (by norm_num [vadVoice])⟩

/-- Claim C10. Because `region_start == 0` is the "no open region" sentinel, with a
positive chunk duration no region emitted by `Regions` (by its region walk on every
energy sequence) or by `Vad` has `Start = 0`: an active first chunk (elapsed time 0) leaves `region_start` at 0, and
when the stream begins with (two) active chunks the first emitted region starts at one
chunk duration. -/
theorem C10_no_region_starts_at_zero (c : Tunables) :
    (∀ (th d : ℚ), 0 < d →
        (∀ (es : List ℚ), ∀ r ∈ regionsWalk c th d es, r.Start ≠ 0) ∧
        (∀ e : ℚ, th < e → regionsLoop c th d Walk.init [e] = ⟨[], 0, 0 + d⟩) ∧
        (∀ (e₀ e₁ : ℚ) (rest : List ℚ) (r : Region), th < e₀ → th < e₁ →
          (regionsWalk c th d (e₀ :: e₁ :: rest)).head? = some r → r.Start = d)) ∧
    (∀ (rms : Samples → Nat → ℚ) (percentile : List ℚ → ℚ → ℚ) (v : Voice)
        (reads : List SampleRead), 0 < v.chunkDuration →
        ∀ r ∈ Regions c rms percentile v reads, r.Start ≠ 0) ∧
    (∀ (v : Voice), 0 < v.chunkDuration →
        (∀ (frames : List VadFrame), ∀ r ∈ Vad c v frames, r.Start ≠ 0) ∧
        (∀ f : VadFrame, f.readErr = ReadErr.none → f.frameActive = true →
          vadLoop c v.chunkDuration Walk.init [f] = some ⟨[], 0, 0 + v.chunkDuration⟩) ∧
        (∀ (f₀ f₁ : VadFrame) (rest : List VadFrame) (r : Region),
          f₀.readErr = ReadErr.none → f₀.frameActive = true →
          f₁.readErr = ReadErr.none → f₁.frameActive = true →
          (Vad c v (f₀ :: f₁ :: rest)).head? = some r → r.Start = v.chunkDuration)) := by
  have two : ∀ (d : ℚ), 0 < d → ∀ (acts : List Bool) (r : Region),
      ((true :: true :: acts).foldl (vadStep c d) Walk.init).regions.head? = some r →
      r.Start = d := by
    intro d hd acts r hr
    have h2 : [true, true].foldl (vadStep c d) Walk.init = ⟨[], d, d + d⟩ := by
      simp [vadStep, Walk.init, ne_of_gt hd]
    rw [show (true :: true :: acts) = [true, true] ++ acts from rfl, List.foldl_append, h2] at hr
    exact walk_head_start c d d (d + d) (ne_of_gt hd) acts r hr
  have hw : ∀ (th d : ℚ) (es : List ℚ), ∀ r ∈ regionsWalk c th d es, r.Start ≠ 0 := by
    intro th d es
    exact (detectors_of_walk c d (fun out => ∀ r ∈ out, r.Start ≠ 0) (by simp)
      (walk_start_ne_zero c d)).1 th es
  refine ⟨?_, ?_, ?_⟩
  · intro th d hd
    refine ⟨fun es => hw th d es, ?_, ?_⟩
    · intro e he
      simp [regionsLoop, regionsStep, Walk.init, not_le.mpr he]
    · intro e₀ e₁ rest r h₀ h₁ hr
      unfold regionsWalk at hr
      rw [regionsLoop_eq_foldl] at hr
      have a₀ : isActive th e₀ = true := by simp [isActive, h₀]
      have a₁ : isActive th e₁ = true := by simp [isActive, h₁]
      rw [List.map_cons, List.map_cons, a₀, a₁] at hr
      exact two d hd _ r hr
  · intro rms percentile v reads _ r hr
    exact hw _ v.chunkDuration _ r hr
  · intro v hd
    refine ⟨fun frames => ?_, ?_, ?_⟩
    · exact (detectors_of_walk c v.chunkDuration (fun out => ∀ r ∈ out, r.Start ≠ 0) (by simp)
        (walk_start_ne_zero c v.chunkDuration)).2 v frames rfl
    · intro f hf ha
      simp [vadLoop, vadStep, Walk.init, hf, ha]
    · intro f₀ f₁ rest r hr₀ ha₀ hr₁ ha₁ hr
      rcases Vad_eq c v (f₀ :: f₁ :: rest) with h | h
      · rw [h] at hr; simp at hr
      · rw [h] at hr
        simp only [okFrames, hr₀, hr₁, if_true, List.map_cons, ha₀, ha₁] at hr
        exact two v.chunkDuration hd _ r hr

theorem C10_no_region_starts_at_zero_witness :
    (0 : ℚ) < 1 / 2 ∧
    (⟨1 / 2, 2⟩ : Region) ∈ regionsWalk defaultTunables 9 (1 / 2) [10, 10, 10, 10, 0] ∧
    (⟨1 / 2, 2⟩ : Region).Start ≠ 0 :=
  ⟨by norm_num,
    by simp [regionsWalk, regionsLoop, regionsStep, Walk.init, defaultTunables]; norm_num,
    ((C10_no_region_starts_at_zero defaultTunables).1 9 (1 / 2) (by norm_num)).1
      [10, 10, 10, 10, 0] ⟨1 / 2, 2⟩
      (by simp [regionsWalk, regionsLoop, regionsStep, Walk.init, defaultTunables]; norm_num)⟩

/-! ## `Voice.To`: the goroutines, the handoff and the reassembly -/

section ToProofs

variable (r : List Region) (extractSlice : Nat → Region → Option File)

theorem toStep_spawn {s s' : ToState} (h : toStep LoopVar.perIteration r extractSlice s Event.spawn = some s') :
    s.sending = false ∧ ∃ region, r[s.index]? = some region ∧
      s' = { s with
        sending := true
        region := region
        goroutines := Function.update s.goroutines s.index (Goroutine.receiving region) } := by
  simp only [toStep] at h
  by_cases hs : s.sending = false
  · rw [if_pos hs] at h
    cases hr : r[s.index]? with
    | none => rw [hr] at h; simp at h
    | some region =>
      rw [hr] at h
      simp only [Option.some.injEq] at h
      exact ⟨hs, region, rfl, h.symm⟩
  · rw [if_neg hs] at h; simp at h

theorem toStep_handoff {s s' : ToState} {g : Nat}
    (h : toStep LoopVar.perIteration r extractSlice s (Event.handoff g) = some s') :
    s.sending = true ∧ ∃ region, s.goroutines g = Goroutine.receiving region ∧
      s' = { s with
        sending := false
        index := s.index + 1
        goroutines := Function.update s.goroutines g (Goroutine.extracting region s.index) } := by
  simp only [toStep] at h
  by_cases hs : s.sending = true
  · rw [if_pos hs] at h
    cases hg : s.goroutines g <;> rw [hg] at h <;> simp at h
    exact ⟨hs, _, rfl, h.symm⟩
  · rw [if_neg hs] at h; simp at h

theorem toStep_extracted {s s' : ToState} {g : Nat}
    (h : toStep LoopVar.perIteration r extractSlice s (Event.extracted g) = some s') :
    ∃ region id, s.goroutines g = Goroutine.extracting region id ∧
      ((extractSlice g region = none ∧
          s' = { s with goroutines := Function.update s.goroutines g Goroutine.done }) ∨
        ∃ f, extractSlice g region = some f ∧
          s' = { s with
            goroutines := Function.update s.goroutines g (Goroutine.storing id f) }) := by
  simp only [toStep] at h
  cases hg : s.goroutines g <;> rw [hg] at h <;> simp at h
  rename_i region id
  refine ⟨region, id, rfl, ?_⟩
  cases he : extractSlice g region with
  | none => rw [he] at h; simp at h; exact Or.inl ⟨rfl, h.symm⟩
  | some f => rw [he] at h; simp at h; exact Or.inr ⟨f, rfl, h.symm⟩

theorem toStep_stored {s s' : ToState} {g : Nat}
    (h : toStep LoopVar.perIteration r extractSlice s (Event.stored g) = some s') :
    ∃ id f, s.goroutines g = Goroutine.storing id f ∧
      s' = { s with
        goroutines := Function.update s.goroutines g Goroutine.done
        file := mapSet s.file id f } := by
  simp only [toStep] at h
  cases hg : s.goroutines g <;> rw [hg] at h <;> simp at h
  exact ⟨_, _, rfl, h.symm⟩

theorem toInv_init : ToInv r extractSlice ToState.init where
  index_le := Nat.zero_le _
  spawned := fun g hg => absurd hg (Nat.not_lt_zero g)
  current := Or.inr ⟨rfl, rfl⟩
  later := fun _ _ => rfl
  file_iff := fun k f => by simp [ToState.init]
  keys_nodup := by simp [ToState.init]

/-- Where a goroutine in a given state sits relative to the dispatcher. -/
theorem toInv_receiving {s : ToState} (inv : ToInv r extractSlice s) {g : Nat} {region : Region}
    (hg : s.goroutines g = Goroutine.receiving region) :
    g = s.index ∧ s.sending = true ∧ r[g]? = some region := by
  rcases Nat.lt_trichotomy g s.index with hlt | heq | hgt
  · obtain ⟨reg, _, h | ⟨f, _, h⟩ | h⟩ := inv.spawned g hlt <;> rw [hg] at h <;> simp at h
  · subst heq
    rcases inv.current with ⟨hs, reg, hr, hc⟩ | ⟨_, hc⟩
    · rw [hg] at hc
      simp only [Goroutine.receiving.injEq] at hc
      rw [hc]
      exact ⟨rfl, hs, hr⟩
    · rw [hg] at hc; simp at hc
  · have := inv.later g hgt
    rw [hg] at this; simp at this

theorem toInv_extracting {s : ToState} (inv : ToInv r extractSlice s) {g id : Nat}
    {region : Region} (hg : s.goroutines g = Goroutine.extracting region id) :
    g < s.index ∧ id = g ∧ r[g]? = some region := by
  rcases Nat.lt_trichotomy g s.index with hlt | heq | hgt
  · obtain ⟨reg, hr, h | ⟨f, _, h⟩ | h⟩ := inv.spawned g hlt <;> rw [hg] at h <;> simp at h
    rw [h.1]
    exact ⟨hlt, h.2, hr⟩
  · subst heq
    rcases inv.current with ⟨_, reg, _, hc⟩ | ⟨_, hc⟩ <;> rw [hg] at hc <;> simp at hc
  · have := inv.later g hgt
    rw [hg] at this; simp at this

theorem toInv_storing {s : ToState} (inv : ToInv r extractSlice s) {g id : Nat} {f : File}
    (hg : s.goroutines g = Goroutine.storing id f) :
    g < s.index ∧ id = g ∧ ∃ region, r[g]? = some region ∧ extractSlice g region = some f := by
  rcases Nat.lt_trichotomy g s.index with hlt | heq | hgt
  · obtain ⟨reg, hr, h | ⟨f', hf', h⟩ | h⟩ := inv.spawned g hlt <;> rw [hg] at h <;> simp at h
    refine ⟨hlt, h.1, reg, hr, ?_⟩
    rw [h.2]; exact hf'
  · subst heq
    rcases inv.current with ⟨_, reg, _, hc⟩ | ⟨_, hc⟩ <;> rw [hg] at hc <;> simp at hc
  · have := inv.later g hgt
    rw [hg] at this; simp at this

theorem mem_mapSet (m : List (Nat × File)) (g : Nat) (f : File) (k : Nat) (f' : File) :
    (k, f') ∈ mapSet m g f ↔ (k = g ∧ f' = f) ∨ ((k, f') ∈ m ∧ k ≠ g) := by
  simp [mapSet, List.mem_filter]

theorem keys_mapSet_nodup (m : List (Nat × File)) (g : Nat) (f : File)
    (h : (m.map Prod.fst).Nodup) : ((mapSet m g f).map Prod.fst).Nodup := by
  unfold mapSet
  rw [List.map_cons, List.nodup_cons]
  constructor
  · intro hmem
    obtain ⟨p, hp, hpg⟩ := List.mem_map.mp hmem
    rw [List.mem_filter] at hp
    simp only [ne_eq, decide_not, Bool.not_eq_true', decide_eq_false_iff_not] at hp
    exact hp.2 hpg
  · exact h.sublist ((List.filter_sublist _).map _)

theorem toInv_spawn {s : ToState} (inv : ToInv r extractSlice s) {region : Region}
    (hr : r[s.index]? = some region) :
    ToInv r extractSlice { s with
      sending := true
      region := region
      goroutines := Function.update s.goroutines s.index (Goroutine.receiving region) } where
  index_le := inv.index_le
  spawned := by
    intro g hg
    simp only [Function.update_noteq (Nat.ne_of_lt hg)]
    exact inv.spawned g hg
  current := Or.inl ⟨rfl, region, hr, by simp⟩
  later := by
    intro g hg
    simp only [Function.update_noteq (Nat.ne_of_gt hg)]
    exact inv.later g hg
  file_iff := by
    intro k f
    rw [inv.file_iff]
    constructor <;> rintro ⟨hk, hd, hreg⟩ <;> refine ⟨hk, ?_, hreg⟩
    · simpa only [Function.update_noteq (Nat.ne_of_lt hk)] using hd
    · simpa only [Function.update_noteq (Nat.ne_of_lt hk)] using hd
  keys_nodup := inv.keys_nodup

theorem toInv_handoff {s : ToState} (inv : ToInv r extractSlice s) {region : Region}
    (hr : r[s.index]? = some region) :
    ToInv r extractSlice { s with
      sending := false
      index := s.index + 1
      goroutines := Function.update s.goroutines s.index
        (Goroutine.extracting region s.index) } where
  index_le := by
    have := (List.getElem?_eq_some.mp hr).1
    exact this
  spawned := by
    intro g hg
    by_cases hgi : g = s.index
    · subst hgi
      exact ⟨region, hr, Or.inl (by simp)⟩
    · simp only [Function.update_noteq hgi]
      exact inv.spawned g (by simp only at hg; omega)
  current := by
    right
    refine ⟨rfl, ?_⟩
    simp only [Function.update_noteq (Nat.succ_ne_self s.index)]
    exact inv.later _ (Nat.lt_succ_self _)
  later := by
    intro g hg
    simp only at hg
    simp only [Function.update_noteq (show g ≠ s.index by omega)]
    exact inv.later g (by omega)
  file_iff := by
    intro k f
    rw [inv.file_iff]
    by_cases hki : k = s.index
    · subst hki
      simp
    · simp only [Function.update_noteq hki]
      constructor <;> rintro ⟨hk, hd, hreg⟩ <;> refine ⟨by omega, hd, hreg⟩
  keys_nodup := inv.keys_nodup

/-- A goroutine already past the handoff moves on without touching the map. -/
theorem toInv_move {s : ToState} (inv : ToInv r extractSlice s) {g : Nat} (hg : g < s.index)
    (hnot : s.goroutines g ≠ Goroutine.done) (st : Goroutine) {region : Region}
    (hr : r[g]? = some region)
    (hst : st = Goroutine.extracting region g ∨
      (∃ f, extractSlice g region = some f ∧ st = Goroutine.storing g f) ∨
      (st = Goroutine.done ∧ extractSlice g region = none)) :
    ToInv r extractSlice { s with goroutines := Function.update s.goroutines g st } where
  index_le := inv.index_le
  spawned := by
    intro g' hg'
    by_cases hgg : g' = g
    · subst hgg
      refine ⟨region, hr, ?_⟩
      simp only [Function.update_same]
      rcases hst with h | h | h
      · exact Or.inl h
      · exact Or.inr (Or.inl h)
      · exact Or.inr (Or.inr h.1)
    · simp only [Function.update_noteq hgg]
      exact inv.spawned g' hg'
  current := by
    simp only [Function.update_noteq (Nat.ne_of_gt hg)]
    exact inv.current
  later := by
    intro g' hg'
    simp only at hg'
    simp only [Function.update_noteq (show g' ≠ g by omega)]
    exact inv.later g' hg'
  file_iff := by
    intro k f
    rw [inv.file_iff]
    by_cases hkg : k = g
    · subst hkg
      simp only [Function.update_same]
      constructor
      · rintro ⟨_, hd, _⟩
        exact absurd hd hnot
      · rintro ⟨_, hd, reg, hreg, hex⟩
        rcases hst with h | ⟨f', _, h⟩ | ⟨_, hnone⟩
        · rw [h] at hd; simp at hd
        · rw [h] at hd; simp at hd
        · rw [hr] at hreg
          simp only [Option.some.injEq] at hreg
          rw [← hreg, hnone] at hex
          simp at hex
    · simp only [Function.update_noteq hkg]
  keys_nodup := inv.keys_nodup

theorem toInv_stored {s : ToState} (inv : ToInv r extractSlice s) {g : Nat} {f : File}
    (hg : s.goroutines g = Goroutine.storing g f) :
    ToInv r extractSlice { s with
      goroutines := Function.update s.goroutines g Goroutine.done
      file := mapSet s.file g f } := by
  obtain ⟨hlt, _, region, hr, hex⟩ := toInv_storing r extractSlice inv hg
  refine ⟨inv.index_le, ?_, ?_, ?_, ?_, keys_mapSet_nodup _ _ _ inv.keys_nodup⟩
  · intro g' hg'
    by_cases hgg : g' = g
    · subst hgg
      exact ⟨region, hr, Or.inr (Or.inr (by simp))⟩
    · simp only [Function.update_noteq hgg]
      exact inv.spawned g' hg'
  · simp only [Function.update_noteq (Nat.ne_of_gt hlt)]
    exact inv.current
  · intro g' hg'
    simp only at hg'
    simp only [Function.update_noteq (show g' ≠ g by omega)]
    exact inv.later g' hg'
  · intro k f'
    rw [mem_mapSet, inv.file_iff]
    by_cases hkg : k = g
    · subst hkg
      simp only [Function.update_same, true_and, ne_eq, not_true_eq_false, and_false, or_false]
      constructor
      · rintro rfl
        exact ⟨hlt, region, hr, hex⟩
      · rintro ⟨_, reg, hreg, hex'⟩
        rw [hr] at hreg
        simp only [Option.some.injEq] at hreg
        rw [← hreg, hex] at hex'
        simp only [Option.some.injEq] at hex'
        exact hex'.symm
    · simp only [Function.update_noteq hkg, hkg, false_and, false_or, ne_eq, not_false_eq_true,
        and_true]

theorem toInv_step {s s' : ToState} {e : Event} (inv : ToInv r extractSlice s)
    (h : toStep LoopVar.perIteration r extractSlice s e = some s') : ToInv r extractSlice s' := by
  cases e with
  | spawn =>
    obtain ⟨_, region, hr, rfl⟩ := toStep_spawn r extractSlice h
    exact toInv_spawn r extractSlice inv hr
  | handoff g =>
    obtain ⟨_, region, hg, rfl⟩ := toStep_handoff r extractSlice h
    obtain ⟨rfl, _, hr⟩ := toInv_receiving r extractSlice inv hg
    exact toInv_handoff r extractSlice inv hr
  | extracted g =>
    obtain ⟨region, id, hg, h⟩ := toStep_extracted r extractSlice h
    obtain ⟨hlt, rfl, hr⟩ := toInv_extracting r extractSlice inv hg
    have hnot : s.goroutines id ≠ Goroutine.done := by rw [hg]; simp
    rcases h with ⟨he, rfl⟩ | ⟨f, he, rfl⟩
    · exact toInv_move r extractSlice inv hlt hnot _ hr (Or.inr (Or.inr ⟨rfl, he⟩))
    · exact toInv_move r extractSlice inv hlt hnot _ hr (Or.inr (Or.inl ⟨f, he, rfl⟩))
  | stored g =>
    obtain ⟨id, f, hg, rfl⟩ := toStep_stored r extractSlice h
    obtain ⟨_, rfl, _⟩ := toInv_storing r extractSlice inv hg
    exact toInv_stored r extractSlice inv hg

theorem toInv_run {s s' : ToState} (schedule : List Event) (inv : ToInv r extractSlice s)
    (h : toRun LoopVar.perIteration r extractSlice s schedule = some s') : ToInv r extractSlice s' := by
  induction schedule generalizing s with
  | nil =>
    simp only [toRun, Option.some.injEq] at h
    rw [← h]; exact inv
  | cons e es ih =>
    simp only [toRun] at h
    cases hs : toStep LoopVar.perIteration r extractSlice s e with
    | none => rw [hs] at h; simp at h
    | some s₁ =>
      rw [hs] at h
      exact ih (toInv_step r extractSlice inv hs) h

theorem lookup_of_mem (m : List (Nat × File)) (h : (m.map Prod.fst).Nodup) (k : Nat) (f : File)
    (hm : (k, f) ∈ m) : m.lookup k = some f := by
  induction m with
  | nil => simp at hm
  | cons p rest ih =>
    obtain ⟨k', f'⟩ := p
    rw [List.map_cons, List.nodup_cons] at h
    rw [List.lookup_cons]
    rcases List.mem_cons.mp hm with heq | hmem
    · simp only [Prod.mk.injEq] at heq
      rw [heq.1, heq.2]
      simp
    · have hne : k ≠ k' := by
        rintro rfl
        exact h.1 (List.mem_map.mpr ⟨(k, f), hmem, rfl⟩)
      have hb : (k == k') = false := by simpa using hne
      rw [hb]
      exact ih h.2 hmem

theorem filter_map_eq_filterMap (φ : Nat → Option File) (get : Nat → File) (l : List Nat)
    (h : ∀ k ∈ l, ∀ f, φ k = some f → get k = f) :
    (l.filter (fun k => (φ k).isSome)).map get = l.filterMap φ := by
  induction l with
  | nil => rfl
  | cons k rest ih =>
    have ih' := ih (fun k' hk' => h k' (List.mem_cons_of_mem _ hk'))
    cases hφ : φ k with
    | none => simp [List.filter_cons, List.filterMap_cons, hφ, ih']
    | some f =>
      simp [List.filter_cons, List.filterMap_cons, hφ, ih', h k (List.mem_cons_self _ _) f hφ]

/-- In a state where `wg.Wait()` returns, the map holds exactly the handles of the
successful extractions, keyed by input index. -/
theorem finished_file_iff {s : ToState} (inv : ToInv r extractSlice s) (hfin : toFinished r s)
    (k : Nat) (f : File) : (k, f) ∈ s.file ↔ (r[k]?).bind (extractSlice k) = some f := by
  obtain ⟨hidx, _, hdone⟩ := hfin
  rw [inv.file_iff, hidx]
  constructor
  · rintro ⟨_, _, region, hr, hex⟩
    rw [hr]; exact hex
  · intro h
    cases hr : r[k]? with
    | none => rw [hr] at h; simp at h
    | some region =>
      rw [hr] at h
      have hk : k < r.length := (List.getElem?_eq_some.mp hr).1
      exact ⟨hk, hdone k hk, region, rfl, h⟩

/-- What `To` assembles once `wg.Wait()` has returned. -/
theorem sortedFile_finished {s : ToState} (inv : ToInv r extractSlice s)
    (hfin : toFinished r s) (keys : List Nat) (hkeys : keys.Perm (s.file.map Prod.fst)) :
    sortedFile s.file keys = successfulHandles r extractSlice := by
  have hmem := finished_file_iff r extractSlice inv hfin
  have hperm : (s.file.map Prod.fst).Perm
      ((List.range r.length).filter (fun k => ((r[k]?).bind (extractSlice k)).isSome)) := by
    rw [List.perm_ext_iff_of_nodup inv.keys_nodup ((List.nodup_range _).filter _)]
    intro k
    rw [List.mem_filter, List.mem_range, List.mem_map]
    constructor
    · rintro ⟨⟨k', f⟩, hp, rfl⟩
      have := (hmem k' f).mp hp
      refine ⟨?_, by rw [this]; rfl⟩
      cases hr : r[k']? with
      | none => rw [hr] at this; simp at this
      | some region => exact (List.getElem?_eq_some.mp hr).1
    · rintro ⟨_, hsome⟩
      obtain ⟨f, hf⟩ := Option.isSome_iff_exists.mp hsome
      exact ⟨(k, f), (hmem k f).mpr hf, rfl⟩
  have hsort : keys.insertionSort (fun a b => a ≤ b)
      = (List.range r.length).filter (fun k => ((r[k]?).bind (extractSlice k)).isSome) :=
    List.eq_of_perm_of_sorted (((List.perm_insertionSort _ keys).trans hkeys).trans hperm)
      (List.sorted_insertionSort _ keys) ((List.sorted_le_range _).filter _)
  unfold sortedFile successfulHandles
  rw [hsort]
  apply filter_map_eq_filterMap
  intro k _ f hf
  unfold mapGet
  rw [lookup_of_mem s.file inv.keys_nodup k f ((hmem k f).mpr hf)]
  rfl

/-- Every complete run of `To` returns the successful handles in input order. -/
theorem To_eq (schedule : List Event) (keys : List Nat) (out : List File)
    (h : To LoopVar.perIteration r extractSlice schedule keys = some out) : out = successfulHandles r extractSlice := by
  unfold To at h
  cases hrun : toRun LoopVar.perIteration r extractSlice ToState.init schedule with
  | none => rw [hrun] at h; simp at h
  | some s =>
    rw [hrun] at h
    simp only at h
    split_ifs at h with hc
    simp only [Option.some.injEq] at h
    rw [← h]
    exact sortedFile_finished r extractSlice
      (toInv_run r extractSlice schedule (toInv_init r extractSlice) hrun) hc.1 keys hc.2

theorem toRun_append (s : ToState) (es₁ es₂ : List Event) :
    toRun LoopVar.perIteration r extractSlice s (es₁ ++ es₂)
      = (toRun LoopVar.perIteration r extractSlice s es₁).bind (fun s' => toRun LoopVar.perIteration r extractSlice s' es₂) := by
  induction es₁ generalizing s with
  | nil => rfl
  | cons e es ih =>
    simp only [List.cons_append, toRun]
    cases toStep LoopVar.perIteration r extractSlice s e with
    | none => rfl
    | some s' => exact ih s'

/-- The sequential schedule runs: after `k` goroutines the dispatcher is at iteration
`k` and the first `k` goroutines have returned. -/
theorem sequential_run (k : Nat) (hk : k ≤ r.length) :
    ∃ s, toRun LoopVar.perIteration r extractSlice ToState.init (sequentialSchedule r extractSlice k) = some s ∧
      s.index = k ∧ s.sending = false ∧
      ∀ g, s.goroutines g = if g < k then Goroutine.done else Goroutine.unspawned := by
  induction k with
  | zero => exact ⟨ToState.init, rfl, rfl, rfl, fun g => by simp [ToState.init]⟩
  | succ k ih =>
    obtain ⟨s, hrun, hidx, hsend, hgo⟩ := ih (by omega)
    have hlt : k < r.length := by omega
    have hr : r[k]? = some r[k] := List.getElem?_eq_getElem hlt
    have final : ∀ (st : Goroutine → Goroutine) (g : Nat),
        Function.update (Function.update (Function.update (Function.update s.goroutines k
          (Goroutine.receiving r[k])) k (Goroutine.extracting r[k] k)) k
          (st Goroutine.done)) k Goroutine.done g
        = if g < k + 1 then Goroutine.done else Goroutine.unspawned := by
      intro st g
      by_cases hg : g = k
      · subst hg; simp
      · rw [Function.update_noteq hg, Function.update_noteq hg, Function.update_noteq hg,
          Function.update_noteq hg, hgo g]
        by_cases hgk : g < k
        · simp [hgk, show g < k + 1 by omega]
        · simp [hgk, show ¬ g < k + 1 by omega]
    cases hex : extractSlice k r[k] with
    | none =>
      refine ⟨{ s with
        index := k + 1
        region := r[k]
        goroutines := Function.update (Function.update (Function.update s.goroutines k
          (Goroutine.receiving r[k])) k (Goroutine.extracting r[k] k)) k Goroutine.done },
        ?_, rfl, hsend, ?_⟩
      · simp [sequentialSchedule, toRun_append, hrun, toRun, toStep, hidx, hsend, hr, hex]
      · intro g
        have := final (fun _ => Goroutine.done) g
        simpa using this
    | some f =>
      refine ⟨{ s with
        index := k + 1
        region := r[k]
        goroutines := Function.update (Function.update (Function.update (Function.update
          s.goroutines k (Goroutine.receiving r[k])) k (Goroutine.extracting r[k] k)) k
          (Goroutine.storing k f)) k Goroutine.done
        file := mapSet s.file k f }, ?_, rfl, hsend, ?_⟩
      · simp [sequentialSchedule, toRun_append, hrun, toRun, toStep, hidx, hsend, hr, hex]
      · intro g
        by_cases hg : g = k
        · subst hg; simp
        · simp only [Function.update_noteq hg, hgo g]
          by_cases hgk : g < k
          · simp [hgk, show g < k + 1 by omega]
          · simp [hgk, show ¬ g < k + 1 by omega]

/-- `To` returns under the sequential schedule. -/
theorem To_sequential :
    ∃ keys, To LoopVar.perIteration r extractSlice (sequentialSchedule r extractSlice r.length) keys
      = some (successfulHandles r extractSlice) := by
  obtain ⟨s, hrun, hidx, hsend, hgo⟩ := sequential_run r extractSlice r.length le_rfl
  have hfin : toFinished r s := ⟨hidx, hsend, fun g hg => by rw [hgo g, if_pos hg]⟩
  have inv := toInv_run r extractSlice _ (toInv_init r extractSlice) hrun
  refine ⟨s.file.map Prod.fst, ?_⟩
  unfold To
  rw [hrun]
  simp only
  rw [if_pos ⟨hfin, List.Perm.refl _⟩,
    sortedFile_finished r extractSlice inv hfin _ (List.Perm.refl _)]

/-- No deadlock: in every reachable state in which `wg.Wait()` has not returned, some
event can happen. -/
theorem To_progress {s : ToState} (inv : ToInv r extractSlice s) (hnot : ¬ toFinished r s) :
    ∃ e, (toStep LoopVar.perIteration r extractSlice s e).isSome = true := by
  rcases inv.current with ⟨hs, region, _, hg⟩ | ⟨hs, _⟩
  · exact ⟨Event.handoff s.index, by simp [toStep, hs, hg]⟩
  · by_cases hlt : s.index < r.length
    · exact ⟨Event.spawn, by simp [toStep, hs, List.getElem?_eq_getElem hlt]⟩
    · have hidx : s.index = r.length := le_antisymm inv.index_le (not_lt.mp hlt)
      have : ∃ g, g < r.length ∧ s.goroutines g ≠ Goroutine.done := by
        by_contra hcon
        push_neg at hcon
        exact hnot ⟨hidx, hs, hcon⟩
      obtain ⟨g, hg, hgd⟩ := this
      obtain ⟨region, _, h | ⟨f, _, h⟩ | h⟩ := inv.spawned g (by omega)
      · cases hex : extractSlice g region with
        | none => exact ⟨Event.extracted g, by simp [toStep, h, hex]⟩
        | some f => exact ⟨Event.extracted g, by simp [toStep, h, hex]⟩
      · exact ⟨Event.stored g, by simp [toStep, h]⟩
      · exact absurd h hgd

theorem sum_rank_update (go : Nat → Goroutine) (g : Nat) (st : Goroutine) (n : Nat)
    (hg : g < n) :
    ((List.range n).map (fun x => (Function.update go g st x).rank)).sum + (go g).rank
      = ((List.range n).map (fun x => (go x).rank)).sum + st.rank := by
  induction n with
  | zero => omega
  | succ n ih =>
    simp only [List.range_succ, List.map_append, List.sum_append, List.map_cons, List.map_nil,
      List.sum_cons, List.sum_nil, Nat.add_zero]
    by_cases hgn : g = n
    · subst hgn
      have hsame : (List.range g).map (fun x => (Function.update go g st x).rank)
          = (List.range g).map (fun x => (go x).rank) := by
        apply List.map_congr_left
        intro x hx
        rw [Function.update_noteq (Nat.ne_of_lt (List.mem_range.mp hx))]
      rw [hsame, Function.update_same]
      omega
    · have := ih (by omega)
      rw [Function.update_noteq (Ne.symm hgn)]
      omega

theorem advance_update (n : Nat) (s : ToState) (g : Nat) (st : Goroutine) (hg : g < n)
    (file : List (Nat × File)) (index : Nat) (sending : Bool) (region : Region) :
    advance n ⟨index, sending, Function.update s.goroutines g st, file, region⟩
        + (s.goroutines g).rank
      = advance n s + st.rank :=
  sum_rank_update s.goroutines g st n hg

theorem advance_le (n : Nat) (s : ToState) : advance n s ≤ 4 * n := by
  unfold advance
  induction n with
  | zero => simp
  | succ n ih =>
    simp only [List.range_succ, List.map_append, List.sum_append, List.map_cons, List.map_nil,
      List.sum_cons, List.sum_nil, Nat.add_zero]
    have : (s.goroutines n).rank ≤ 4 := by
      cases s.goroutines n <;> simp [Goroutine.rank]
    omega

theorem advance_step {s s' : ToState} {e : Event} (inv : ToInv r extractSlice s)
    (h : toStep LoopVar.perIteration r extractSlice s e = some s') :
    advance r.length s + 1 ≤ advance r.length s' := by
  cases e with
  | spawn =>
    obtain ⟨_, region, hr, rfl⟩ := toStep_spawn r extractSlice h
    have hlt := (List.getElem?_eq_some.mp hr).1
    have := advance_update r.length s s.index (Goroutine.receiving region) hlt s.file s.index true
      region
    rcases inv.current with ⟨hs, _⟩ | ⟨_, hc⟩
    · simp_all
    · rw [hc] at this
      simp only [Goroutine.rank] at this
      omega
  | handoff g =>
    obtain ⟨_, region, hg, rfl⟩ := toStep_handoff r extractSlice h
    obtain ⟨rfl, _, hr⟩ := toInv_receiving r extractSlice inv hg
    have hlt := (List.getElem?_eq_some.mp hr).1
    have := advance_update r.length s s.index (Goroutine.extracting region s.index) hlt s.file
      (s.index + 1) false s.region
    rw [hg] at this
    simp only [Goroutine.rank] at this
    omega
  | extracted g =>
    obtain ⟨region, id, hg, h⟩ := toStep_extracted r extractSlice h
    obtain ⟨hlt, _, _⟩ := toInv_extracting r extractSlice inv hg
    have hn := inv.index_le
    rcases h with ⟨_, rfl⟩ | ⟨f, _, rfl⟩
    · have := advance_update r.length s g Goroutine.done (by omega) s.file s.index s.sending
        s.region
      rw [hg] at this
      simp only [Goroutine.rank] at this
      omega
    · have := advance_update r.length s g (Goroutine.storing id f) (by omega) s.file s.index
        s.sending s.region
      rw [hg] at this
      simp only [Goroutine.rank] at this
      omega
  | stored g =>
    obtain ⟨id, f, hg, rfl⟩ := toStep_stored r extractSlice h
    obtain ⟨hlt, _, _⟩ := toInv_storing r extractSlice inv hg
    have hn := inv.index_le
    have := advance_update r.length s g Goroutine.done (by omega) (mapSet s.file id f) s.index
      s.sending s.region
    rw [hg] at this
    simp only [Goroutine.rank] at this
    omega

theorem advance_run {s s' : ToState} (schedule : List Event) (inv : ToInv r extractSlice s)
    (h : toRun LoopVar.perIteration r extractSlice s schedule = some s') :
    advance r.length s + schedule.length ≤ advance r.length s' := by
  induction schedule generalizing s with
  | nil =>
    simp only [toRun, Option.some.injEq] at h
    rw [← h]; simp
  | cons e es ih =>
    simp only [toRun] at h
    cases hs : toStep LoopVar.perIteration r extractSlice s e with
    | none => rw [hs] at h; simp at h
    | some s₁ =>
      rw [hs] at h
      have h1 := advance_step r extractSlice inv hs
      have h2 := ih (toInv_step r extractSlice inv hs) h
      simp only [List.length_cons]
      omega

/-- No run of `To` on `n` regions has more than `4 * n` events. -/
theorem To_run_length {s : ToState} (schedule : List Event)
    (h : toRun LoopVar.perIteration r extractSlice ToState.init schedule = some s) :
    schedule.length ≤ 4 * r.length := by
  have h1 := advance_run r extractSlice schedule (toInv_init r extractSlice) h
  have h2 := advance_le r.length s
  omega

/-- When every extraction succeeds the successful handles are all the handles. -/
theorem successfulHandles_all
    (hall : ∀ i region, r[i]? = some region → (extractSlice i region).isSome = true) :
    (successfulHandles r extractSlice).length = r.length ∧
      ∀ i region, r[i]? = some region →
        (successfulHandles r extractSlice)[i]? = extractSlice i region := by
  have hmap : successfulHandles r extractSlice
      = (List.range r.length).map (fun i => ((r[i]?).bind (extractSlice i)).getD 0) := by
    unfold successfulHandles
    rw [← filter_map_eq_filterMap _ (fun i => ((r[i]?).bind (extractSlice i)).getD 0) _
      (fun k _ f hf => by simp [hf])]
    congr 1
    rw [List.filter_eq_self]
    intro i hi
    have hlt := List.mem_range.mp hi
    rw [List.getElem?_eq_getElem hlt]
    exact hall i r[i] (List.getElem?_eq_getElem hlt)
  rw [hmap]
  refine ⟨by simp, ?_⟩
  intro i region hr
  have hlt := (List.getElem?_eq_some.mp hr).1
  rw [List.getElem?_map, List.getElem?_range hlt, Option.map_some', hr]
  obtain ⟨f, hf⟩ := Option.isSome_iff_exists.mp (hall i region hr)
  simp [hf]

end ToProofs

/-- With per-iteration loop variables (Go 1.22 and later): for every list of regions,
every outcome of the per-region extractions and every schedule of the goroutines, `To`
does return (a complete run exists, no reachable state is stuck, no run is longer than
`4 * n` events), and every complete run returns exactly the handles of the regions
whose extraction succeeded, in ascending input-index order. When no extraction fails
the result is as long as the input and position `i` holds the handle extracted for
`regions[i]`; for 5 regions of which only the goroutine with id 3 fails the result is
the 4 successful handles in input order. -/
theorem To_perIteration_returns_successes_in_input_order (r : List Region)
    (extractSlice : Nat → Region → Option File) :
    (∃ schedule keys, To LoopVar.perIteration r extractSlice schedule keys
        = some (successfulHandles r extractSlice)) ∧
    (∀ schedule s, toRun LoopVar.perIteration r extractSlice ToState.init schedule = some s →
        schedule.length ≤ 4 * r.length ∧
        (¬ toFinished r s → ∃ e, (toStep LoopVar.perIteration r extractSlice s e).isSome = true)) ∧
    (∀ schedule keys out, To LoopVar.perIteration r extractSlice schedule keys = some out →
        out = successfulHandles r extractSlice ∧
        ((∀ i region, r[i]? = some region → (extractSlice i region).isSome = true) →
          out.length = r.length ∧
          ∀ i region, r[i]? = some region → out[i]? = extractSlice i region) ∧
        (∀ (r₀ r₁ r₂ r₃ r₄ : Region) (f₀ f₁ f₂ f₄ : File), r = [r₀, r₁, r₂, r₃, r₄] →
          extractSlice 0 r₀ = some f₀ → extractSlice 1 r₁ = some f₁ →
          extractSlice 2 r₂ = some f₂ → extractSlice 3 r₃ = none →
          extractSlice 4 r₄ = some f₄ → out = [f₀, f₁, f₂, f₄])) := by
  refine ⟨?_, ?_, ?_⟩
  · obtain ⟨keys, h⟩ := To_sequential r extractSlice
    exact ⟨_, keys, h⟩
  · intro schedule s hrun
    exact ⟨To_run_length r extractSlice schedule hrun,
      To_progress r extractSlice (toInv_run r extractSlice schedule (toInv_init r extractSlice) hrun)⟩
  · intro schedule keys out h
    have hout := To_eq r extractSlice schedule keys out h
    refine ⟨hout, ?_, ?_⟩
    · intro hall
      rw [hout]
      exact successfulHandles_all r extractSlice hall
    · intro r₀ r₁ r₂ r₃ r₄ f₀ f₁ f₂ f₄ hr h₀ h₁ h₂ h₃ h₄
      rw [hout, hr]
      simp [successfulHandles, List.range_succ, h₀, h₁, h₂, h₃, h₄]

/-- Claim C1, evaluated on the code with one `region` variable for the whole loop (the
meaning of `for index, region := range r` before Go 1.22). Two regions whose
extractions both succeed, with handle 10 for `regions[0]` and 11 for `regions[1]`;
both goroutines are started and handed their ids before the first one calls
`extractSlice`. Goroutine 0 then reads the shared `region`, which the second iteration
has set to `regions[1]`: `To` returns `[11, 11]`, so position 0 holds the handle
extracted for `regions[1]`, where the claim has `[10, 11]`. With per-iteration
variables the same schedule returns `[10, 11]`. -/
theorem C1_To_shared_loop_variable :
    To LoopVar.perLoop [⟨0, 1⟩, ⟨2, 3⟩] handleOf lateSchedule [0, 1] = some [11, 11] ∧
    successfulHandles [⟨0, 1⟩, ⟨2, 3⟩] handleOf = [10, 11] ∧
    To LoopVar.perIteration [⟨0, 1⟩, ⟨2, 3⟩] handleOf lateSchedule [0, 1] = some [10, 11] := by
  refine ⟨?_, ?_, ?_⟩ <;> decide

end GoSRT
